import Mathlib

/-!
# Verification of the rcluster proxy against its specification

This file shallowly embeds the parts of the `rcluster` code base that the
frozen claims are about:

* the RESP reply encoder (`rcluster/protocol/replies/__init__.py`) and the
  reply reader (`rcluster/protocol/__init__.py`; the bulk and multi-bulk
  readers are stubs in the source, so their decode direction is modelled
  from the specification's RESP grammar),
* the command dispatcher and stream handler (`rcluster/protocol/__init__.py`),
* the request framer of the interface (`rcluster/proxy/__init__.py`),
* the `PriorityQueue` wrapper over CPython's `heapq`
  (`rcluster/shared/__init__.py`; the `heapq` algorithms themselves are
  translated from CPython's library, which the source delegates to),
* the coordinator-prototype `Shard.add_shard` path
  (`rcluster/shard/__init__.py`),
* the replicated SET/GET key-value engine, which exists in this revision of
  the repository only through its tests (`rcluster/tests/shard/__init__.py`);
  it is modelled from the specification.

Byte strings (`bytes` in Python) are embedded as `List Nat` of code points.
-/

namespace RCluster

/-- Python `bytes` values: a list of byte values. -/
abbrev Bytes := List Nat

/-- ASCII code of a character, for readable byte-string literals. -/
def ascii (s : String) : Bytes := s.toList.map Char.toNat

/-- Carriage return / line feed, the RESP line terminator. -/
def CRLF : Bytes := [13, 10]

/-- Is the byte an ASCII decimal digit (`0`–`9`)? -/
def isDigitB (b : Nat) : Bool := 48 ≤ b && b ≤ 57

/-- Is the byte whitespace that Python's `int()` strips around a
number (space, tab, LF, VT, FF, CR)?  The separator controls
`\x1c`–`\x1f` are *not* accepted by `int()`: `int("1\x1c")` raises
`ValueError`. -/
def isSpaceB (b : Nat) : Bool := b == 32 || b == 9 || b == 10 || b == 11 || b == 12 || b == 13

/-- Is the byte (of an ASCII-decoded `str`) whitespace for
`str.strip`?  Besides the `int()` set, `str.isspace` also holds of the
file/group/record/unit separators `\x1c`–`\x1f`, and `str.rstrip`
strips them. -/
def isStrSpaceB (b : Nat) : Bool := isSpaceB b || (28 ≤ b && b ≤ 31)

/-- The decimal digits of `n`, most significant first, as ASCII bytes.
Mirrors Python `str(n)` for a non-negative `n`. -/
def natDigits (n : Nat) : Bytes :=
  if h : n < 10 then [48 + n]
  else natDigits (n / 10) ++ [48 + n % 10]
decreasing_by exact Nat.div_lt_self (by omega) (by omega)

/-- Python `str(v)` for an integer `v`: optional minus sign, then digits. -/
def intDigits (v : Int) : Bytes :=
  if v < 0 then 45 :: natDigits v.natAbs else natDigits v.toNat

/-- Numeric value of a digit string (the accumulator fold used to state
that parsing inverts printing). -/
def digitsVal (ds : Bytes) : Nat := ds.foldl (fun a d => a * 10 + (d - 48)) 0

/-- Python `str.rstrip()` on an ASCII-decoded line: drop trailing
`str` whitespace (the wider set including `\x1c`–`\x1f`). -/
def rstrip (bs : Bytes) : Bytes := (bs.reverse.dropWhile isStrSpaceB).reverse

/-- After the first digit of a number given to `int()`: a run of
digits in which single underscores may stand between digits
(`int("1_0_2")` is 102; a leading, trailing or doubled underscore is a
`ValueError`).  The Boolean state records whether the previous byte
was an underscore: an underscore may not follow another underscore and
may not end the run. -/
def pyDigitsTail : Bool → Bytes → Bool
  | st, [] => !st
  | st, d :: rest =>
    if d = 95 then
      if st then false else pyDigitsTail true rest
    else
      isDigitB d && pyDigitsTail false rest

/-- A non-empty digit run with optional single underscores between
digits — what `int()` accepts after the optional sign. -/
def pyDigits (ds : Bytes) : Bool :=
  match ds with
  | [] => false
  | d :: rest => isDigitB d && pyDigitsTail false rest

/-- The digits with the underscore group separators removed: `int()`
reads `"1_0"` as `10`. -/
def stripUnderscores (ds : Bytes) : Bytes := ds.filter (fun b => b != 95)

/-- Python `int(s)` after whitespace stripping, on a non-empty string
with head `c` and tail `ds`: an optional sign and then a non-empty run
of decimal digits with optional single underscores between digits;
anything else raises `ValueError` (modelled as `none`).  (Python
additionally accepts non-ASCII digits; the ASCII decode in every
caller rules those out.) -/
def pyParseIntTail (c : Nat) (ds : Bytes) : Option Int :=
  if c = 45 then
    if pyDigits ds then some (-(digitsVal (stripUnderscores ds) : Int)) else none
  else if c = 43 then
    if pyDigits ds then some (digitsVal (stripUnderscores ds) : Int) else none
  else
    if pyDigits (c :: ds) then some (digitsVal (stripUnderscores (c :: ds)) : Int) else none

/-- Python `int(s)` (continued): strip whitespace on both sides, then an
optional sign and a non-empty digit run. -/
def pyParseInt (s : Bytes) : Option Int :=
  match (s.dropWhile isSpaceB).reverse.dropWhile isSpaceB |>.reverse with
  | [] => none
  | c :: ds => pyParseIntTail c ds

/-- `str(data, "ascii")` on bytes: succeeds iff every byte is < 128
(`UnicodeDecodeError`, a `ValueError`, otherwise). -/
def decodeAscii (bs : Bytes) : Option Bytes :=
  if bs.all (· < 128) then some bs else none

/-! ## Frame reader (`rcluster/proxy/__init__.py`, `_InterfaceClientRequest`)

`_read_argument_count` is the `READ_COUNT` state: it receives from
`IOStream.read_until(b"\r\n")` the bytes up to and including the first
CRLF.  `_send_status(status, close=True)` writes `status + b"\r\n"` and
then closes the stream. -/

/-- What `_read_argument_count` does with the delivered line. -/
inductive FrameStep where
  /-- `_send_status(..., close=True)`: the argument bytes are written to
  the client and the stream is closed. -/
  | errorClose (sent : Bytes)
  /-- `self._callback()`: the request is a no-op and the connection
  object serves the next request. -/
  | noopNext
  /-- `read_until(b"\r\n", self._read_argument_length)` with this many
  arguments still to read. -/
  | readArguments (count : Int)
  deriving DecidableEq, Repr

/-- The literal error status of the `READ_COUNT` state. -/
def errArgCountMsg : Bytes := ascii "-ERR *<number of arguments> CR LF is expected."

/-- `_InterfaceClientRequest._read_argument_count(data)`:

```
try:
    line = data.decode("ascii")
    if not line or line[0] != "*":
        raise ValueError()
    self._argument_count = int(line[1:].rstrip())
except ValueError:
    self._send_status(b"-ERR *<number of arguments> CR LF is expected.", close=True)
else:
    if self._argument_count > 0: ... read_until(..., self._read_argument_length)
    else: self._callback()
```
(`UnicodeDecodeError` is a `ValueError`, so a non-ASCII byte also lands in
the `except` branch.) -/
def readArgumentCount (data : Bytes) : FrameStep :=
  match decodeAscii data with
  | none => .errorClose (errArgCountMsg ++ CRLF)
  | some line =>
    match line with
    | [] => .errorClose (errArgCountMsg ++ CRLF)
    | c :: rest =>
      if c ≠ 42 then .errorClose (errArgCountMsg ++ CRLF)
      else
        match pyParseInt (rstrip rest) with
        | none => .errorClose (errArgCountMsg ++ CRLF)
        | some n => if n > 0 then .readArguments n else .noopNext

/-- The claim's well-formedness notion for the count line: the bytes after
`*` are an optionally signed, non-empty run of decimal digits (this is the
claim's "decimal integer"), and the line ends with CRLF. -/
def ClaimCountLine (data : Bytes) : Prop :=
  ∃ sgn ds, (sgn = ([] : Bytes) ∨ sgn = [45]) ∧ ds ≠ [] ∧ ds.all isDigitB ∧
    data = 42 :: (sgn ++ ds) ++ CRLF

/-- The `rest` texts (the line after the `*`) on which
`int(rest.rstrip())` succeeds: optional `int()` whitespace, an
optional sign, a non-empty digit run with optional single underscores
between digits, then trailing `str` whitespace for `rstrip` to remove
(the wider set including `\x1c`–`\x1f`). -/
def PyIntText (s : Bytes) : Prop :=
  ∃ a sgn ds w, a.all isSpaceB ∧
    (sgn = ([] : Bytes) ∨ sgn = [43] ∨ sgn = [45]) ∧
    pyDigits ds = true ∧ w.all isStrSpaceB ∧ s = a ++ sgn ++ ds ++ w

/-! ## RESP replies and the codec

`rcluster/protocol/replies/__init__.py` defines the reply classes and
`ReplyEncoder`.  The reply objects also carry a `quit` ("close after
send") flag that the encoder never reads and the wire format never
carries; the codec-level value embedded here is the tagged payload, and
the flag is modelled separately where the stream handler needs it.
`NoneReply` is referenced by `rcluster/protocol/__init__.py` and by the
tests but is absent from the replies module; it is the null bulk
(`ReplyEncoder.encode` maps `None` to `b"$-1\r\n"`). -/

/-- A Redis-protocol reply value. -/
inductive Reply where
  | status (data : Bytes)
  | error (data : Bytes)
  | integer (value : Int)
  | bulk (data : Bytes)
  | null
  | multiBulk (replies : List Reply)
  deriving Repr

/-- `ReplyEncoder._encode_bulk(reply)`: reads `reply.data`, so it also
"works" on status and error replies (they have `.data`), and raises
`AttributeError` (modelled as `none`) on integer, null and multi-bulk
replies. -/
def encodeAsBulk : Reply → Option Bytes
  | .status d | .error d | .bulk d =>
      some (36 :: natDigits d.length ++ CRLF ++ d ++ CRLF)
  | _ => none

/-- `ReplyEncoder.encode`.  The multi-bulk branch applies `_encode_bulk`
to every element, so a multi-bulk whose elements lack a `.data`
attribute raises (modelled as `none`). -/
def encode : Reply → Option Bytes
  | .status d => some (43 :: d ++ CRLF)
  | .error d => some (45 :: d ++ CRLF)
  | .integer v => some (58 :: intDigits v ++ CRLF)
  | .bulk d => some (36 :: natDigits d.length ++ CRLF ++ d ++ CRLF)
  | .null => some (36 :: 45 :: 49 :: CRLF)
  | .multiBulk rs =>
      (rs.mapM encodeAsBulk).map
        (fun bodies => 42 :: natDigits rs.length ++ CRLF ++ bodies.flatten)

/-- `read_until(b"\r\n")` against the repository's own test stream stub
(`rcluster/tests/protocol/__init__.py`, `_Stream.read_until`): the bytes
strictly before the first CRLF, and the remainder after it. -/
def readLine : Bytes → Option (Bytes × Bytes)
  | [] => none
  | c :: rest =>
    if c = 13 ∧ rest.head? = some 10 then some ([], rest.tail)
    else (readLine rest).map (fun p => (c :: p.1, p.2))

/-- Decode one bulk reply from `$`-prefixed bytes.  The length line and
the spec's rules: a negative length is a null bulk consuming no body; a
length of `n ≥ 0` is followed by `n` body bytes and CRLF.
Modelled from the spec: `_BulkReplyReader.read` is a stub in the source. -/
def decodeBulk (bs : Bytes) : Option (Reply × Bytes) :=
  match bs with
  | 36 :: rest =>
    match readLine rest with
    | none => none
    | some (line, rest') =>
      match pyParseInt line with
      | none => none
      | some len =>
        if len < 0 then some (.null, rest')
        else
          let n := len.toNat
          if rest'.length < n then none
          else
            match rest'.drop n with
            | 13 :: 10 :: tail => some (.bulk (rest'.take n), tail)
            | _ => none
  | _ => none

/-- Decode `n` consecutive bulk items.
Modelled from the spec: `_MultiBulkReplyReader.read` is a stub whose
comment says it should read its items with `_BulkReplyReader`. -/
def decodeBulks : Nat → Bytes → Option (List Reply × Bytes)
  | 0, bs => some ([], bs)
  | n + 1, bs =>
    match decodeBulk bs with
    | none => none
    | some (r, rest) =>
      match decodeBulks n rest with
      | none => none
      | some (rs, rest') => some (r :: rs, rest')

/-- `_ReplyReader.read`: one byte of reply type, then the type-specific
reader.  Status, error and integer replies follow
`rcluster/protocol/__init__.py` (read to CRLF; `int()` for integers);
bulk and multi-bulk replies are modelled from the spec because their
readers are stubs. -/
def decode (bs : Bytes) : Option (Reply × Bytes) :=
  match bs with
  | 43 :: rest => (readLine rest).map (fun p => (.status p.1, p.2))
  | 45 :: rest => (readLine rest).map (fun p => (.error p.1, p.2))
  | 58 :: rest =>
    match readLine rest with
    | none => none
    | some (line, rest') =>
      match pyParseInt line with
      | none => none
      | some v => some (.integer v, rest')
  | 36 :: _ => decodeBulk bs
  | 42 :: rest =>
    match readLine rest with
    | none => none
    | some (line, rest') =>
      match pyParseInt line with
      | none => none
      | some n =>
        if n < 0 then none
        else (decodeBulks n.toNat rest').map (fun p => (.multiBulk p.1, p.2))
  | _ => none

/-- "No CRLF inside": the byte string contains no 13-then-10 pair.  The
encoder writes status and error payloads on a single line, so round
trips need this. -/
def noCRLF : Bytes → Bool
  | [] => true
  | c :: rest => if c = 13 ∧ rest.head? = some 10 then false else noCRLF rest

/-- The claim's "well-formed" reply values: status and error payloads
are single-line, and a multi-bulk holds only bulks (the encoder bulk-
encodes every element, and a request is a multi-bulk of bulks). -/
def WellFormed : Reply → Prop
  | .status d => noCRLF d = true
  | .error d => noCRLF d = true
  | .integer _ => True
  | .bulk _ => True
  | .null => True
  | .multiBulk rs => ∀ r ∈ rs, ∃ d, r = .bulk d

/-! ## Command dispatcher and stream handler
(`rcluster/protocol/__init__.py`: `CommandHandler`, `_StreamHandler`) -/

/-- A reply object as a handler produces it: the wire value plus the
`quit` ("close after send") flag of the reply classes. -/
structure SReply where
  r : Reply
  quit : Bool
  deriving Repr

/-- `StatusReply(data=d)`: `quit` defaults to `False`. -/
def mkStatus (d : Bytes) : SReply := ⟨.status d, false⟩

/-- `ErrorReply(data=d)`: `quit` defaults to `True` in the source. -/
def mkError (d : Bytes) : SReply := ⟨.error d, true⟩

/-- `ErrorReply(data=d, quit=False)` as some handlers construct it. -/
def mkErrorStay (d : Bytes) : SReply := ⟨.error d, false⟩

/-- `BulkReply(data=d)`: `quit` defaults to `False`. -/
def mkBulk (d : Bytes) : SReply := ⟨.bulk d, false⟩

/-- `IntegerReply(value=v)`: `quit` defaults to `False`. -/
def mkInteger (v : Int) : SReply := ⟨.integer v, false⟩

/-- Exceptions a handler invocation can produce. -/
inductive PyExc where
  /-- `rcluster.protocol.exceptions.CommandError` with its message. -/
  | commandError (data : Bytes)
  /-- `rcluster.protocol.exceptions.UnknownCommandError`. -/
  | unknownCommand
  /-- Any other Python exception (`TypeError`, `AttributeError`, ...). -/
  | pyError
  /-- `rcluster.shard.exceptions.ClusterStateOperationError`. -/
  | clusterStateError
  /-- `rcluster.shard.exceptions.ShardIsNotAvailable`. -/
  | shardIsNotAvailable
  deriving DecidableEq, Repr

/-- Access `reply.data`: present on status, error and bulk replies,
`AttributeError` (modelled as `none`) otherwise. -/
def dataOf : Reply → Option Bytes
  | .status d | .error d | .bulk d => some d
  | _ => none

/-- `bytes.upper()`: uppercase the ASCII letters. -/
def upperBytes (bs : Bytes) : Bytes :=
  bs.map (fun b => if 97 ≤ b ∧ b ≤ 122 then b - 32 else b)

/-- `CommandHandler._on_ping`. -/
def onPing (args : List Reply) : Except PyExc SReply :=
  match args with
  | [] => .ok (mkStatus (ascii "PONG"))
  | _ => .error (.commandError (ascii "ERR Expected> PING"))

/-- `CommandHandler._on_echo`: replies `BulkReply(data=arguments[0].data)`. -/
def onEcho (args : List Reply) : Except PyExc SReply :=
  match args with
  | [r] =>
    match dataOf r with
    | some d => .ok (mkBulk d)
    | none => .error .pyError
  | _ => .error (.commandError (ascii "ERR Expected> ECHO data"))

/-- `CommandHandler._on_quit`: `StatusReply(data=b"OK Bye!", quit=True)`
when called without arguments, a usage `CommandError` otherwise. -/
def onQuit (args : List Reply) : Except PyExc SReply :=
  match args with
  | [] => .ok ⟨.status (ascii "OK Bye!"), true⟩
  | _ => .error (.commandError (ascii "ERR Expected> QUIT"))

/-- An info section: its name and its `key:value` items. -/
abbrev InfoSection := Bytes × List (Bytes × Bytes)

/-- The base handler's command list joined with commas
(`b",".join(self._handlers.keys())`), in the dictionary's insertion
order (the interpreter contemporary with this code does not guarantee
an order; no theorem below depends on this byte string). -/
def commandsJoined : Bytes := ascii "PING,ECHO,QUIT,INFO"

/-- `CommandHandler._get_info(section)`: the `Server` section when
`section` is `None` or `b"Server"`, the empty dict otherwise. -/
def baseGetInfo (sec : Option Bytes) : Except PyExc (List InfoSection) :=
  if sec = none ∨ sec = some (ascii "Server") then
    .ok [(ascii "Server", [(ascii "commands", commandsJoined)])]
  else .ok []

/-- `_ShardCommandHandler._get_info(self)` (`rcluster/shard/__init__.py`)
takes no `section` parameter, while its caller `_on_info` always passes
one positional argument; the call therefore raises `TypeError`.  (The
method body is also the site of the module's syntax error, line 487:
a generator expression with a trailing comma; the module cannot even be
imported.) -/
def shardGetInfo (_section : Option Bytes) : Except PyExc (List InfoSection) :=
  .error .pyError

/-- `b"\r\n".join(xs)` (more generally, `sep.join(xs)`). -/
def joinBytes (sep : Bytes) : List Bytes → Bytes
  | [] => []
  | x :: rest => x ++ (rest.map (fun y => sep ++ y)).flatten

/-- `CommandHandler._serialize_info_section`. -/
def serializeInfoSection (s : InfoSection) : List Bytes :=
  (ascii "# " ++ s.1) :: s.2.map (fun it => it.1 ++ ascii ":" ++ it.2)

/-- `CommandHandler._on_info`, parameterized by the instance's
`_get_info` (which `_ShardCommandHandler` overrides). -/
def onInfo (getInfo : Option Bytes → Except PyExc (List InfoSection))
    (args : List Reply) : Except PyExc SReply :=
  if args.length > 1 then .error (.commandError (ascii "ERR Expected> INFO [section]"))
  else
    match args with
    | [] =>
      (getInfo none).map (fun info =>
        mkBulk (joinBytes CRLF (info.map serializeInfoSection).flatten ++ CRLF))
    | r :: _ =>
      match dataOf r with
      | none => .error .pyError
      | some sec =>
        (getInfo (some sec)).map (fun info =>
          mkBulk (joinBytes CRLF (info.map serializeInfoSection).flatten ++ CRLF))

/-- `CommandHandler.__init__`'s handler dictionary. -/
def baseHandlers (cmd : Bytes) : Option (List Reply → Except PyExc SReply) :=
  if cmd = ascii "PING" then some onPing
  else if cmd = ascii "ECHO" then some onEcho
  else if cmd = ascii "QUIT" then some onQuit
  else if cmd = ascii "INFO" then some (onInfo baseGetInfo)
  else none

/-- `_ShardCommandHandler`'s dictionary: `ADDSHARD` is added, and the
inherited `INFO` entry dispatches to the overridden `_get_info`. -/
def shardHandlers (addshard : List Reply → Except PyExc SReply)
    (cmd : Bytes) : Option (List Reply → Except PyExc SReply) :=
  if cmd = ascii "ADDSHARD" then some addshard
  else if cmd = ascii "INFO" then some (onInfo shardGetInfo)
  else baseHandlers cmd

/-- `CommandHandler.handle`: look up the uppercased token; raise
`UnknownCommandError` when there is no handler. -/
def handle (handlers : Bytes → Option (List Reply → Except PyExc SReply))
    (command : Bytes) (args : List Reply) : Except PyExc SReply :=
  match handlers (upperBytes command) with
  | some h => h args
  | none => .error .unknownCommand

/-- What `_StreamHandler._on_read_request` does with a parsed request. -/
inductive DispatchOutcome where
  /-- `self._reply(reply)` is reached with this reply object. -/
  | reply (r : SReply)
  /-- An exception escapes `_on_read_request`; no reply is produced. -/
  | crash
  deriving Repr

/-- `b"ERR Internal server error."`. -/
def internalErrMsg : Bytes := ascii "ERR Internal server error."

/-- `_StreamHandler._on_read_request(request)`:

* `command, *arguments = request.replies` (raises before the `try` on an
  empty request);
* `handle(command.data, arguments)` inside `try`;
* `except CommandError as ex: reply = ErrorReply(data=ex.data)` — note
  the default `quit=True`;
* `except UnknownCommandError: reply = ErrorReply(data=b"ERR Unknown
  command: " + command)` — `command` here is the reply *object*, not its
  `.data` bytes, so the concatenation raises `TypeError`; an exception
  raised inside an `except` block is not caught by the later bare
  `except`, so it escapes and no reply is produced;
* bare `except`: `reply = ErrorReply(data=b"ERR Internal server error.")`,
  again with the default `quit=True`. -/
def onReadRequest (handlers : Bytes → Option (List Reply → Except PyExc SReply))
    (request : List Reply) : DispatchOutcome :=
  match request with
  | [] => .crash
  | command :: arguments =>
    match dataOf command with
    | none => .reply (mkError internalErrMsg)
    | some cmdBytes =>
      match handle handlers cmdBytes arguments with
      | .ok r => .reply r
      | .error (.commandError d) => .reply (mkError d)
      | .error .unknownCommand => .crash
      | .error _ => .reply (mkError internalErrMsg)

/-- What `_StreamHandler._reply(reply)` does. -/
inductive WireAction where
  /-- The encoded bytes are written and the next request is served. -/
  | sendThenServeNext (data : Bytes)
  /-- `self._read_reader.close` is evaluated for the write callback, but
  `_StreamHandler` never sets a `_read_reader` attribute: an
  `AttributeError` is raised before anything is written. -/
  | attrError
  /-- `ReplyEncoder.encode` itself raises. -/
  | encodeCrash
  deriving Repr

/-- `_StreamHandler._reply`: encode, then write with the continuation
`self._serve_request` when `reply.quit` is false — and the nonexistent
`self._read_reader.close` when it is true. -/
def streamReply (rep : SReply) : WireAction :=
  match encode rep.r with
  | none => .encodeCrash
  | some data => if rep.quit then .attrError else .sendThenServeNext data

/-! ## `heapq` and `PriorityQueue` (`rcluster/shared/__init__.py`)

`PriorityQueue` delegates to CPython's `heapq` library module.  The
`heapq` algorithms below are translated from that library
(`_siftdown`, `_siftup`, `heappush`, `heappop`, `heapify`).  Python
compares heap elements with the duck-typed `<`, embedded as an explicit
`lt : α → α → Bool` parameter. -/

section Heapq

variable {α : Type} (lt : α → α → Bool)

/-- The `while pos > startpos` loop of `heapq._siftdown`: bubble the
hole at `pos` towards `startpos` while `newitem` is smaller than the
parent.  Returns the list and the final hole position (the source then
stores `newitem` there). -/
def siftdownLoop (newitem : α) (L : List α) (startpos pos : Nat) : List α × Nat :=
  if _h : startpos < pos then
    let parentpos := (pos - 1) / 2
    match L.get? parentpos with
    | some parent =>
      if lt newitem parent then siftdownLoop newitem (L.set pos parent) startpos parentpos
      else (L, pos)
    | none => (L, pos)
  else (L, pos)
  termination_by pos
  decreasing_by omega

/-- `heapq._siftdown(heap, startpos, pos)`: save `heap[pos]` as
`newitem`, bubble up, then place `newitem` at the final position. -/
def siftdown (L : List α) (startpos pos : Nat) : List α :=
  match L.get? pos with
  | some newitem =>
    let r := siftdownLoop lt newitem L startpos pos
    r.1.set r.2 newitem
  | none => L

/-- The child-selection step of `heapq._siftup`: `childpos` is the left
child; `if rightpos < endpos and not heap[childpos] < heap[rightpos]:
childpos = rightpos`.  Returns the chosen child with its bounds. -/
def chooseChild (L : List α) (pos : Nat) (h : 2 * pos + 1 < L.length) :
    { c : Nat // 2 * pos + 1 ≤ c ∧ c < L.length } :=
  if h2 : 2 * pos + 2 < L.length then
    if lt (L.get ⟨2 * pos + 1, h⟩) (L.get ⟨2 * pos + 2, h2⟩) then ⟨2 * pos + 1, Nat.le_refl _, h⟩
    else ⟨2 * pos + 2, Nat.le_succ _, h2⟩
  else ⟨2 * pos + 1, Nat.le_refl _, h⟩

/-- The `while childpos < endpos` loop of `heapq._siftup`: move the
smaller child up into the hole, down to a leaf.  Returns the list and
the final hole position. -/
def siftupLoop (L : List α) (pos : Nat) : List α × Nat :=
  if h : 2 * pos + 1 < L.length then
    let c := chooseChild lt L pos h
    siftupLoop (L.set pos (L.get ⟨c.1, c.2.2⟩)) c.1
  else (L, pos)
  termination_by L.length - pos
  decreasing_by
    simp only [List.length_set]
    have := (chooseChild lt L pos h).2
    omega

/-- `heapq._siftup(heap, pos)`: save `heap[pos]`, pull the smaller-child
chain up to a leaf, place `newitem` at the leaf, then `_siftdown` from
the original `pos`. -/
def siftup (L : List α) (pos : Nat) : List α :=
  match L.get? pos with
  | some newitem =>
    let r := siftupLoop lt L pos
    siftdown lt (r.1.set r.2 newitem) pos r.2
  | none => L

/-- `heapq.heappush(heap, item)`: append, then `_siftdown(heap, 0,
len(heap)-1)`. -/
def heappush (L : List α) (item : α) : List α :=
  siftdown lt (L ++ [item]) 0 L.length

/-- `heapq.heappop(heap)`: `heap.pop()` raises `IndexError` (modelled as
`none`) on an empty heap; otherwise the root is returned, the popped
last element is placed at the root, and `_siftup(heap, 0)` restores the
invariant. -/
def heappop (L : List α) : Option (α × List α) :=
  match L.getLast? with
  | none => none
  | some lastelt =>
    match L.dropLast with
    | [] => some (lastelt, [])
    | r0 :: rest => some (r0, siftup lt ((r0 :: rest).set 0 lastelt) 0)

/-- The `for i in reversed(range(n//2))` loop of `heapq.heapify`:
`heapifyLoop lt L k` runs `_siftup` at positions `k-1, …, 0`. -/
def heapifyLoop : List α → Nat → List α
  | L, 0 => L
  | L, k + 1 => heapifyLoop (siftup lt L k) k

/-- `heapq.heapify(x)`. -/
def heapify (L : List α) : List α := heapifyLoop lt L (L.length / 2)

end Heapq

/-- Python's tuple comparison on pairs, used by `heapq` on the
`(key(item), item)` tuples the `PriorityQueue` stores. -/
def pyPairLt {κ ι : Type} [LinearOrder κ] [LinearOrder ι] (a b : κ × ι) : Bool :=
  decide (a.1 < b.1) || (decide (a.1 = b.1) && decide (a.2 < b.2))

/-- `PriorityQueue.__init__(initial, key)`: the heap data is
`[(key(item), item) for item in initial]` heapified (for a falsy
`initial` the data is `[]`, which equals heapifying the empty list). -/
def pqInit {κ ι : Type} (lt : (κ × ι) → (κ × ι) → Bool) (key : ι → κ)
    (initial : List ι) : List (κ × ι) :=
  heapify lt (initial.map (fun x => (key x, x)))

/-- `PriorityQueue.push(item)`: `heappush(self._data, (self.key(item), item))`. -/
def pqPush {κ ι : Type} (lt : (κ × ι) → (κ × ι) → Bool) (key : ι → κ)
    (data : List (κ × ι)) (item : ι) : List (κ × ι) :=
  heappush lt data (key item, item)

/-- `PriorityQueue.pop()`: `heappop(self._data)[1]` — the payload of the
smallest key-payload tuple; `IndexError` (`none`) on an empty queue. -/
def pqPop {κ ι : Type} (lt : (κ × ι) → (κ × ι) → Bool)
    (data : List (κ × ι)) : Option (ι × List (κ × ι)) :=
  (heappop lt data).map (fun p => (p.1.2, p.2))

/-- The queue states reachable in the source's usage: built from an
initial collection, then any interleaving of pushes and pops. -/
inductive PQReachable {κ ι : Type} (lt : (κ × ι) → (κ × ι) → Bool)
    (key : ι → κ) : List (κ × ι) → Prop where
  | init (initial : List ι) : PQReachable lt key (pqInit lt key initial)
  | push {q : List (κ × ι)} (item : ι) :
      PQReachable lt key q → PQReachable lt key (pqPush lt key q item)
  | pop {q q' : List (κ × ι)} {item : ι} :
      PQReachable lt key q → pqPop lt q = some (item, q') → PQReachable lt key q'

/-! ## Shard coordinator prototype (`rcluster/shard/__init__.py`)

The module in the source tree does not parse: line 487 (inside
`_ShardCommandHandler._get_info`) ends a generator-expression argument
with a trailing comma, a `SyntaxError`, so `import rcluster.shard`
fails.  The definitions below embed the module's code as written, so
that its behaviour can still be compared with the claims. -/

/-- `rcluster.shared.SLOT_COUNT`. -/
def SLOT_COUNT : Nat := 4096

/-- `rcluster.shared.DEFAULT_REDIS_PORT`. -/
def DEFAULT_REDIS_PORT : Nat := 6379

/-- `_ClusterState` global-state constants. -/
def stateEMPTY : Int := 0

/-- `_ClusterState.PARTIAL`. -/
def statePARTIAL : Int := 1

/-- `_ClusterState.OK`. -/
def stateOK : Int := 2

/-- `_ClusterState.SHARD_OK`. -/
def SHARD_OK : Nat := 0

/-- One entry of the `_ClusterState._shards` dictionary.  `host` keeps
whatever object the caller passed (for a wire `ADDSHARD`,
`_on_add_shard` passes `arguments[0]`, a reply object). -/
structure ShardInfo where
  host : Reply
  portNumber : Nat
  state : Nat
  deriving Repr

/-- One entry of the `_ClusterState._slots` dictionary. -/
structure Slot where
  shards : List Bytes
  migrations : List Bytes
  deriving Repr

/-- The cached cluster state held by `_ClusterState` (its Redis-master
persistence is abstracted by the `masterOk` oracle flags below). -/
structure ClusterState where
  state : Int
  replicaness : Nat
  shards : List (Bytes × ShardInfo)
  slots : List (Nat × Slot)
  deriving Repr

/-- Dictionary insert-or-update keeping insertion order. -/
def upsert {β : Type} (m : List (Bytes × β)) (k : Bytes) (v : β) : List (Bytes × β) :=
  if m.any (fun p => p.1 = k) then m.map (fun p => if p.1 = k then (k, v) else p)
  else m ++ [(k, v)]

/-- Dictionary lookup. -/
def dlookup {β : Type} (m : List (Bytes × β)) (k : Bytes) : Option β :=
  (m.find? (fun p => p.1 = k)).map (·.2)

/-- Python lexicographic `<` on byte strings. -/
def pyBytesLt : Bytes → Bytes → Bool
  | [], [] => false
  | [], _ :: _ => true
  | _ :: _, [] => false
  | a :: as, b :: bs => if a < b then true else if b < a then false else pyBytesLt as bs

/-- A `shard_plan` dictionary of `Shard._do_balancing`. -/
structure ShardPlan where
  shardId : Bytes
  slots : List Nat
  deriving Repr

/-- The balancing queue's key: `(len(shard_plan["slots"]),
shard_plan["shard_id"])`. -/
def planKey (p : ShardPlan) : Nat × Bytes := (p.slots.length, p.shardId)

/-- Comparison of the `((len, shard_id), shard_plan)` tuples the
balancing queue stores: Python compares the key tuples first; on a full
key tie it would compare the plan dictionaries and raise `TypeError`,
which is unreachable because shard ids are unique (the source comments
"We really need this as lengths can be equal"). -/
def planLt (a b : (Nat × Bytes) × ShardPlan) : Bool :=
  if a.1.1 < b.1.1 then true
  else if b.1.1 < a.1.1 then false
  else pyBytesLt a.1.2 b.1.2

/-- `[plan.pop() for i in range(n)]`: `n` successive pops; `IndexError`
(`none`) as soon as the queue is empty. -/
def popN : Nat → List ((Nat × Bytes) × ShardPlan) →
    Option (List ShardPlan × List ((Nat × Bytes) × ShardPlan))
  | 0, q => some ([], q)
  | n + 1, q =>
    match pqPop planLt q with
    | none => none
    | some (p, q') =>
      match popN n q' with
      | none => none
      | some (ps, q'') => some (p :: ps, q'')

/-- `Shard.get_unavailable_slots`: slot ids with no attached `SHARD_OK`
shard. -/
def getUnavailableSlots (cs : ClusterState) : List Nat :=
  (cs.slots.filter (fun p =>
    ¬ p.2.shards.any (fun sid =>
      match dlookup cs.shards sid with
      | some info => info.state = SHARD_OK
      | none => false))).map (·.1)

/-- `_ClusterState.state` setter: a no-op when unchanged, otherwise a
write to the master that raises `ClusterStateOperationError` when the
master is unreachable. -/
def setClusterState (cs : ClusterState) (v : Int) (masterOk : Bool) :
    Except PyExc ClusterState :=
  if v = cs.state then .ok cs
  else if masterOk then .ok { cs with state := v }
  else .error .clusterStateError

/-- `Shard._refresh_state`. -/
def refreshState (cs : ClusterState) (masterOk : Bool) : Except PyExc ClusterState :=
  match cs.shards with
  | [] => setClusterState cs stateEMPTY masterOk
  | _ :: _ =>
    if getUnavailableSlots cs ≠ [] then setClusterState cs statePARTIAL masterOk
    else setClusterState cs stateOK masterOk

/-- Phase 1 of `Shard._do_balancing`: for each slot, pop `replicaness`
plans, give each of them the slot, push them back. -/
def balancePhase1 (cs : ClusterState) : Option (List ((Nat × Bytes) × ShardPlan)) :=
  let initial := (cs.shards.filter (fun p => p.2.state = SHARD_OK)).map
    (fun p => ShardPlan.mk p.1 [])
  (List.range SLOT_COUNT).foldlM
    (fun q slotId =>
      match popN cs.replicaness q with
      | none => none
      | some (plans, q') =>
        some (plans.foldl
          (fun qq p => pqPush planLt planKey qq { p with slots := p.slots ++ [slotId] })
          q'))
    (pqInit planLt planKey initial)

/-- `Shard._do_balancing`: phase 1 as above; phase 2 only reads
`self._cluster_state.slots[slot_id]` (a `KeyError` when a planned slot
is not cached) and builds local summaries; phases 3 and 4 are `pass`.
The cluster state is never mutated; only an escaping exception
(`none`) is observable. -/
def doBalancing (cs : ClusterState) : Option Unit :=
  match balancePhase1 cs with
  | none => none
  | some q =>
    if (q.map (·.2)).all (fun p => p.slots.all (fun sid => (cs.slots.find? (fun s => s.1 = sid)).isSome))
    then some () else none

/-- The backend- and master-interaction outcomes of one
`Shard.add_shard` call. -/
structure AddShardOracle where
  /-- `redis.StrictRedis(host, port)` plus `setnx`/`get` reach the
  backend (a failure is a `redis.exceptions.ConnectionError`). -/
  connOk : Bool
  /-- the `connection.setnx(SHARD_ID_KEY, shard_id)` result. -/
  setnxStored : Bool
  /-- `connection.get(SHARD_ID_KEY)` when `setnx` returned `False`. -/
  existingId : Bytes
  /-- `str(uuid.uuid4())` as bytes. -/
  newId : Bytes
  /-- the master-Redis pipelines of `_ClusterState` succeed. -/
  masterOk : Bool

/-- `Shard.add_shard(host, port_number)`: obtain the shard id with
set-if-absent, register the shard in the cluster state, initialize the
slots on the first shard, refresh the state, re-balance, and return the
resulting cluster state.  A backend `ConnectionError` becomes
`ShardIsNotAvailable`.  (In the source the registration mutates
`self._cluster_state` in place even when a later step raises; the
error results below only depend on the paths where this does not
matter.) -/
def shardAddShard (cs : ClusterState) (orc : AddShardOracle) (host : Reply)
    (port : Nat) : Except PyExc (ClusterState × Int) :=
  if ¬ orc.connOk then .error .shardIsNotAvailable
  else
    let shardId := if orc.setnxStored then orc.newId else orc.existingId
    if ¬ orc.masterOk then .error .clusterStateError
    else
      let cs1 := { cs with shards := upsert cs.shards shardId ⟨host, port, SHARD_OK⟩ }
      let cs2 :=
        if cs1.state = stateEMPTY then
          { cs1 with slots := (List.range SLOT_COUNT).map (fun i => (i, ⟨[shardId], []⟩)) }
        else cs1
      match refreshState cs2 orc.masterOk with
      | .error e => .error e
      | .ok cs3 =>
        match doBalancing cs3 with
        | some () => .ok (cs3, cs3.state)
        | none => .error .pyError

/-- `_ShardCommandHandler._on_add_shard`:

* two arguments: `int(arguments[1])` is applied to a reply *object*, a
  `TypeError` that the surrounding `except ValueError` does not catch;
* any count other than 1 or 2: usage `CommandError`;
* one argument: `host = arguments[0]` (the reply object) and the
  default port; `ShardIsNotAvailable` becomes
  `ErrorReply(b"ERR Could not connect to the specified instance.",
  quit=False)`; any other exception becomes
  `ErrorReply(b"ERR Internal server error.", quit=False)`; success
  returns `IntegerReply(value=state)`. -/
def onAddShard (cs : ClusterState) (orc : AddShardOracle) (args : List Reply) :
    Except PyExc SReply :=
  match args with
  | [_, _] => .error .pyError
  | [hostArg] =>
    match shardAddShard cs orc hostArg DEFAULT_REDIS_PORT with
    | .ok (_, st) => .ok (mkInteger st)
    | .error .shardIsNotAvailable =>
        .ok (mkErrorStay (ascii "ERR Could not connect to the specified instance."))
    | .error _ => .ok (mkErrorStay internalErrMsg)
  | _ => .error (.commandError (ascii "ERR Expected> ADDSHARD host [port]"))

/-- `_ShardCommandHandler._get_handler`'s wrapper: turns
`ClusterStateOperationError` into a non-closing error reply and lets
everything else through. -/
def getHandlerWrap (h : List Reply → Except PyExc SReply)
    (args : List Reply) : Except PyExc SReply :=
  match h args with
  | .error .clusterStateError =>
      .ok (mkErrorStay (ascii "ERR Failed to get or update cluster state."))
  | r => r

/-! ## Replicated key-value engine

Modelled from the spec: the `Shard` class with `set`/`get`/`delete` and
per-key timestamped replication exists in this revision only through its
tests (`rcluster/tests/shard/__init__.py`, e.g. `test_set_get_key`); the
definitions below follow spec §4.3.2 (write path) and §4.3.3 (read
path).  A single writer is modelled, so the WATCH-conflict retry loop of
§4.3.2 runs exactly one attempt; per-shard connection failures are the
`avail` oracle. -/

/-- One backend's keyspace. -/
abbrev Store := List (Bytes × Bytes)

/-- A shard record of the replicated engine: identifier, backend
contents, cached `DBSIZE`. -/
structure KVShard where
  sid : Bytes
  store : Store
  dbSize : Nat
  deriving Repr

/-- `rc:` ++ K — the data key of the wrapped pair. -/
def wrapData (k : Bytes) : Bytes := ascii "rc:" ++ k

/-- `rc:` ++ K ++ `:ts` — the timestamp key of the wrapped pair. -/
def wrapTs (k : Bytes) : Bytes := ascii "rc:" ++ k ++ ascii ":ts"

/-- Backend `GET`. -/
def slookup : Store → Bytes → Option Bytes
  | [], _ => none
  | p :: t, k => if p.1 = k then some p.2 else slookup t k

/-- Backend `DELETE`. -/
def serase : Store → Bytes → Store
  | [], _ => []
  | p :: t, k => if p.1 = k then serase t k else p :: serase t k

/-- Backend `SET` (insert or overwrite; one entry per key). -/
def sinsert (st : Store) (k v : Bytes) : Store :=
  (k, v) :: serase st k

/-- Modelled from the spec (§4.3.2): the per-shard transaction of the
write path — `DELETE dataK; DELETE tsK;` then, if the shard is taken as
a replica, `SET dataK V` (absent for a delete) and `SET tsK str(T)`;
the transaction's `DBSIZE` refreshes the cached size. -/
def setShardTxn (sh : KVShard) (k : Bytes) (v : Option Bytes) (T : Nat)
    (write : Bool) : KVShard :=
  let st0 := serase (serase sh.store (wrapData k)) (wrapTs k)
  let st1 :=
    if write then
      match v with
      | some vb => sinsert (sinsert st0 (wrapData k) vb) (wrapTs k) (natDigits T)
      | none => sinsert st0 (wrapTs k) (natDigits T)
    else st0
  { sh with store := st1, dbSize := st1.length }

/-- The insertion step of the stable sort below. -/
def insertBySize (x : KVShard) : List KVShard → List KVShard
  | [] => [x]
  | y :: t => if y.dbSize ≤ x.dbSize then y :: insertBySize x t else x :: y :: t

/-- Stable sort by ascending cached `db_size` (ties keep iteration
order, as the spec prescribes). -/
def sortBySize : List KVShard → List KVShard
  | [] => []
  | x :: t => insertBySize x (sortBySize t)

/-- Modelled from the spec (§4.3.2): one attempt of the write path.
Shards are visited in ascending cached-`db_size` order (stable on
ties); unreachable shards are skipped; the first `R` reachable shards
take the write, the rest only shed their stale copy.  Returns the new
registry and the reply: `true` for `Status "OK"` (some replica accepted
the write, i.e. `remaining < R`), `false` for the cluster-failure
error. -/
def engineSet (shards : List KVShard) (R : Nat) (T : Nat) (k : Bytes)
    (v : Option Bytes) (avail : Bytes → Bool) : List KVShard × Bool :=
  let ordered := sortBySize shards
  let res := ordered.foldl
    (fun (acc : List KVShard × Nat) sh =>
      if avail sh.sid then
        (acc.1 ++ [setShardTxn sh k v T (acc.2 > 0)], acc.2 - 1)
      else (acc.1 ++ [sh], acc.2))
    ([], R)
  (res.1, decide (res.2 < R))

/-- Modelled from the spec (§4.3.3): the timestamp a read parses on one
shard — absent or unparseable is 0. -/
def parseTs (sh : KVShard) (k : Bytes) : Int :=
  match slookup sh.store (wrapTs k) with
  | none => 0
  | some b =>
    match pyParseInt b with
    | none => 0
    | some n => n

/-- Modelled from the spec (§4.3.3): the read path.  Poll every
reachable shard, keep the data whose parsed timestamp strictly exceeds
the running maximum (first seen wins ties), and return the winning data
when it exists and is non-null.  (The read path also refreshes the
cached `db_size` of each polled shard; that cache does not influence
the returned value and is not modelled.) -/
def engineGet (shards : List KVShard) (k : Bytes) (avail : Bytes → Bool) :
    Option Bytes :=
  let res := shards.foldl
    (fun (acc : Int × Option (Option Bytes)) sh =>
      if avail sh.sid then
        let ts := parseTs sh k
        if ts > acc.1 then (ts, some (slookup sh.store (wrapData k))) else acc
      else acc)
    (0, none)
  match res.2 with
  | some (some d) => some d
  | _ => none

/-! ## The binary-heap invariant

Specification-side notions used to state what `heapq` guarantees: the
index `j` lies in the subtree rooted at `i` (`Desc i j`), `j` is a heap
child of `i`, and the array satisfies the heap ordering. -/

/-- `leB lt a b`: `a` is no larger than `b` under the duck-typed `<`
(`not b < a`, as CPython's heapq compares). -/
def leB {α : Type} (lt : α → α → Bool) (a b : α) : Prop := lt b a = false

/-- The laws of a duck-typed `<` that make a heap behave: asymmetry and
transitivity of the induced `≤`.  Any `LinearOrder`'s `<` satisfies
them. -/
structure LtLaws {α : Type} (lt : α → α → Bool) : Prop where
  asymm : ∀ a b, lt a b = true → lt b a = false
  leTrans : ∀ a b c, leB lt a b → leB lt b c → leB lt a c

/-- `Desc i j`: index `j` is in the binary-tree subtree rooted at `i`
(children of `p` are `2p+1` and `2p+2`). -/
inductive Desc : Nat → Nat → Prop where
  | refl (i : Nat) : Desc i i
  | left {i k : Nat} : Desc (2 * i + 1) k → Desc i k
  | right {i k : Nat} : Desc (2 * i + 2) k → Desc i k

/-- `j` is a direct heap child of `i`. -/
def IsChild (i j : Nat) : Prop := j = 2 * i + 1 ∨ j = 2 * i + 2

/-- The parent index, `(pos - 1) >> 1`. -/
def parentIdx (p : Nat) : Nat := (p - 1) / 2

/-- The element at `i` is no larger than the element at `j` (vacuous
when either index is out of range). -/
def leAt {α : Type} (lt : α → α → Bool) (L : List α) (i j : Nat) : Prop :=
  ∀ x y, L.get? i = some x → L.get? j = some y → leB lt x y

/-- The heap ordering holds throughout the subtree rooted at `s`. -/
def HeapAt {α : Type} (lt : α → α → Bool) (L : List α) (s : Nat) : Prop :=
  ∀ i j, Desc s i → IsChild i j → leAt lt L i j

/-- The heap invariant of the whole array. -/
def IsHeap {α : Type} (lt : α → α → Bool) (L : List α) : Prop := HeapAt lt L 0

/-! # Theorems -/

/-! ## Decimal printing and parsing -/

theorem natDigits_all_digit (n : Nat) : (natDigits n).all isDigitB = true := by
  induction n using Nat.strong_induction_on with
  | _ n ih =>
    rw [natDigits]
    split
    · rename_i h
      simp only [List.all_cons, List.all_nil, Bool.and_true, isDigitB,
        Bool.and_eq_true, decide_eq_true_eq]
      omega
    · rename_i h
      rw [List.all_append, Bool.and_eq_true]
      refine And.intro (ih (n / 10) (Nat.div_lt_self (by omega) (by omega))) ?_
      simp only [List.all_cons, List.all_nil, Bool.and_true, isDigitB,
        Bool.and_eq_true, decide_eq_true_eq]
      omega

theorem natDigits_ne_nil (n : Nat) : natDigits n ≠ [] := by
  rw [natDigits]
  split
  · simp
  · simp

theorem digitsVal_append (ds : Bytes) (d : Nat) :
    digitsVal (ds ++ [d]) = digitsVal ds * 10 + (d - 48) := by
  simp [digitsVal, List.foldl_append]

theorem digitsVal_natDigits (n : Nat) : digitsVal (natDigits n) = n := by
  induction n using Nat.strong_induction_on with
  | _ n ih =>
    rw [natDigits]
    split
    · rename_i h
      simp [digitsVal]
    · rename_i h
      rw [digitsVal_append, ih (n / 10) (Nat.div_lt_self (by omega) (by omega))]
      omega

theorem isSpaceB_of_isDigitB {b : Nat} (h : isDigitB b = true) : isSpaceB b = false := by
  simp only [isDigitB, Bool.and_eq_true, decide_eq_true_eq] at h
  simp only [isSpaceB, Bool.or_eq_false_iff, beq_eq_false_iff_ne, ne_eq]
  and_intros <;> omega

theorem isStrSpaceB_of_isSpaceB {b : Nat} (h : isSpaceB b = true) :
    isStrSpaceB b = true := by
  rw [isStrSpaceB, h, Bool.true_or]

theorem isStrSpaceB_eq_false_of {b : Nat} (hb : b = 45 ∨ (48 ≤ b ∧ b ≤ 57)) :
    isStrSpaceB b = false := by
  have h1 : isSpaceB b = false := by
    simp only [isSpaceB, Bool.or_eq_false_iff, beq_eq_false_iff_ne, ne_eq]
    and_intros <;> omega
  rw [isStrSpaceB, h1, Bool.false_or, Bool.and_eq_false_iff]
  right
  simp only [decide_eq_false_iff_not, not_le]
  omega

theorem pyDigitsTail_of_all {ds : Bytes} (h : ds.all isDigitB = true) :
    pyDigitsTail false ds = true := by
  induction ds with
  | nil => rfl
  | cons d t ih =>
    rw [List.all_cons, Bool.and_eq_true] at h
    have hd95 : ¬ d = 95 := by
      have h2 := h.1
      simp only [isDigitB, Bool.and_eq_true, decide_eq_true_eq] at h2
      omega
    simp only [pyDigitsTail]
    rw [if_neg hd95, h.1, ih h.2]
    rfl

theorem pyDigits_of_all {ds : Bytes} (hne : ds ≠ []) (h : ds.all isDigitB = true) :
    pyDigits ds = true := by
  cases ds with
  | nil => exact absurd rfl hne
  | cons d t =>
    rw [List.all_cons, Bool.and_eq_true] at h
    rw [pyDigits, h.1, pyDigitsTail_of_all h.2]
    rfl

theorem stripUnderscores_of_all {ds : Bytes} (h : ds.all isDigitB = true) :
    stripUnderscores ds = ds := by
  rw [stripUnderscores, List.filter_eq_self]
  intro b hb
  have h2 := List.all_eq_true.mp h b hb
  simp only [isDigitB, Bool.and_eq_true, decide_eq_true_eq] at h2
  simp only [bne_iff_ne, ne_eq]
  omega

theorem pyDigitsTail_bytes :
    ∀ (t : Bytes) (st : Bool), pyDigitsTail st t = true →
      ∀ b ∈ t, isDigitB b = true ∨ b = 95 := by
  intro t
  induction t with
  | nil =>
    intro _ _ b hb
    cases hb
  | cons e u ih =>
    intro st ht b hb
    simp only [pyDigitsTail] at ht
    by_cases he : e = 95
    · rw [if_pos he] at ht
      by_cases hst : st = true
      · rw [if_pos hst] at ht
        cases ht
      · rw [if_neg hst] at ht
        rcases List.mem_cons.mp hb with rfl | hbu
        · exact Or.inr he
        · exact ih true ht b hbu
    · rw [if_neg he, Bool.and_eq_true] at ht
      rcases List.mem_cons.mp hb with rfl | hbu
      · exact Or.inl ht.1
      · exact ih false ht.2 b hbu

/-- A valid digit-with-underscores run is non-empty and every byte in
it is a digit or an underscore. -/
theorem pyDigits_bytes {ds : Bytes} (h : pyDigits ds = true) :
    ds ≠ [] ∧ ∀ b ∈ ds, isDigitB b = true ∨ b = 95 := by
  refine ⟨?_, ?_⟩
  · intro hnil
    rw [hnil] at h
    cases h
  · cases ds with
    | nil =>
      intro b hb
      cases hb
    | cons d t =>
      rw [pyDigits, Bool.and_eq_true] at h
      intro b hb
      rcases List.mem_cons.mp hb with rfl | hbt
      · exact Or.inl h.1
      · exact pyDigitsTail_bytes t false h.2 b hbt

theorem dropWhile_eq_self_of {p : Nat → Bool} {s : Bytes}
    (h : ∀ b ∈ s, p b = false) : s.dropWhile p = s := by
  cases s with
  | nil => rfl
  | cons a t =>
    rw [List.dropWhile_cons]
    simp [h a (by simp)]

/-- Stripping whitespace from a string with no whitespace is the
identity; hence `pyParseInt` sees such a string unchanged. -/
theorem stripBoth_eq_self_of {s : Bytes} (h : ∀ b ∈ s, isSpaceB b = false) :
    ((s.dropWhile isSpaceB).reverse.dropWhile isSpaceB).reverse = s := by
  rw [dropWhile_eq_self_of h, dropWhile_eq_self_of (by intro b hb; exact h b (List.mem_reverse.mp hb)),
    List.reverse_reverse]

theorem pyParseInt_natDigits (n : Nat) : pyParseInt (natDigits n) = some (n : Int) := by
  have hd := natDigits_all_digit n
  have hnosp : ∀ b ∈ natDigits n, isSpaceB b = false := by
    intro b hb
    exact isSpaceB_of_isDigitB (List.all_eq_true.mp hd b hb)
  obtain ⟨c, ds, hcds⟩ : ∃ c ds, natDigits n = c :: ds := by
    cases h : natDigits n with
    | nil => exact absurd h (natDigits_ne_nil n)
    | cons c ds => exact ⟨c, ds, rfl⟩
  rw [pyParseInt, stripBoth_eq_self_of hnosp, hcds]
  show pyParseIntTail c ds = some (n : Int)
  have hc : isDigitB c = true := List.all_eq_true.mp hd c (by rw [hcds]; simp)
  have hc45 : c ≠ 45 := by
    simp only [isDigitB, Bool.and_eq_true, decide_eq_true_eq] at hc
    omega
  have hc43 : c ≠ 43 := by
    simp only [isDigitB, Bool.and_eq_true, decide_eq_true_eq] at hc
    omega
  rw [pyParseIntTail, if_neg hc45, if_neg hc43,
    if_pos (by rw [← hcds]; exact pyDigits_of_all (natDigits_ne_nil n) hd)]
  rw [← hcds, stripUnderscores_of_all hd, digitsVal_natDigits]

theorem pyParseInt_intDigits (v : Int) : pyParseInt (intDigits v) = some v := by
  rw [intDigits]
  split
  · rename_i hneg
    have hd := natDigits_all_digit v.natAbs
    have hnosp : ∀ b ∈ (45 : Nat) :: natDigits v.natAbs, isSpaceB b = false := by
      intro b hb
      rcases List.mem_cons.mp hb with h | h
      · subst h; rfl
      · exact isSpaceB_of_isDigitB (List.all_eq_true.mp hd b h)
    rw [pyParseInt, stripBoth_eq_self_of hnosp]
    show pyParseIntTail 45 (natDigits v.natAbs) = some v
    rw [pyParseIntTail, if_pos rfl, if_pos (pyDigits_of_all (natDigits_ne_nil _) hd),
      stripUnderscores_of_all hd, digitsVal_natDigits]
    simp only [Option.some.injEq]
    omega
  · rename_i hge
    rw [pyParseInt_natDigits]
    congr 1
    omega

/-- Digit runs contain no CR and no LF, so they survive `readLine` and
`rstrip` analyses. -/
theorem natDigits_not_crlf (n : Nat) : ∀ b ∈ natDigits n, 13 < b := by
  intro b hb
  have := List.all_eq_true.mp (natDigits_all_digit n) b hb
  simp only [isDigitB, Bool.and_eq_true, decide_eq_true_eq] at this
  omega

/-! ## Frame reader: C8 and C9 -/

theorem rstrip_append_ws {s w : Bytes} (hw : ∀ b ∈ w, isStrSpaceB b = true) :
    rstrip (s ++ w) = rstrip s := by
  rw [rstrip, rstrip, List.reverse_append]
  congr 1
  induction w using List.reverseRecOn with
  | nil => simp
  | append_singleton w b ih =>
    simp only [List.reverse_append, List.reverse_cons, List.reverse_nil, List.nil_append,
      List.cons_append, List.dropWhile_cons]
    rw [if_pos (hw b (by simp))]
    exact ih (fun x hx => hw x (by simp [hx]))

theorem rstrip_eq_self_of {s : Bytes} (h : ∀ b ∈ s, isStrSpaceB b = false) :
    rstrip s = s := by
  rw [rstrip, dropWhile_eq_self_of (by intro b hb; exact h b (List.mem_reverse.mp hb)),
    List.reverse_reverse]

/-- The whitespace-strip of `int()` splits the input into leading
whitespace, the core, and trailing whitespace. -/
theorem stripBoth_decomp (s : Bytes) :
    ∃ a b, (∀ x ∈ a, isSpaceB x = true) ∧ (∀ x ∈ b, isSpaceB x = true) ∧
      s = a ++ ((s.dropWhile isSpaceB).reverse.dropWhile isSpaceB).reverse ++ b := by
  refine ⟨s.takeWhile isSpaceB,
    ((s.dropWhile isSpaceB).reverse.takeWhile isSpaceB).reverse, ?_, ?_, ?_⟩
  · intro x hx; exact List.mem_takeWhile_imp hx
  · intro x hx; exact List.mem_takeWhile_imp (List.mem_reverse.mp hx)
  · have h1 : s = s.takeWhile isSpaceB ++ s.dropWhile isSpaceB := by
      rw [List.takeWhile_append_dropWhile]
    have h2 : (s.dropWhile isSpaceB).reverse =
        (s.dropWhile isSpaceB).reverse.takeWhile isSpaceB ++
        (s.dropWhile isSpaceB).reverse.dropWhile isSpaceB := by
      rw [List.takeWhile_append_dropWhile]
    have h3 := congrArg List.reverse h2
    rw [List.reverse_reverse, List.reverse_append] at h3
    rw [List.append_assoc, ← h3, ← h1]

/-- Completeness of the `int()` model: a successful parse means the
input had the accepted shape. -/
theorem pyParseInt_shape {s : Bytes} {n : Int} (h : pyParseInt s = some n) :
    PyIntText s := by
  obtain ⟨a, b, ha, hb, hs⟩ := stripBoth_decomp s
  have hbs : b.all isStrSpaceB = true :=
    List.all_eq_true.mpr (fun x hx => isStrSpaceB_of_isSpaceB (hb x hx))
  rw [pyParseInt] at h
  generalize hT : ((s.dropWhile isSpaceB).reverse.dropWhile isSpaceB).reverse = t at h hs
  cases t with
  | nil => exact Option.noConfusion h
  | cons c ds =>
    replace h : pyParseIntTail c ds = some n := h
    rw [pyParseIntTail] at h
    by_cases hc45 : c = 45
    · rw [if_pos hc45] at h
      by_cases hds : pyDigits ds = true
      · refine ⟨a, [45], ds, b, List.all_eq_true.mpr ha, Or.inr (Or.inr rfl), hds, hbs, ?_⟩
        rw [hs, hc45]; simp
      · rw [if_neg hds] at h; exact Option.noConfusion h
    · rw [if_neg hc45] at h
      by_cases hc43 : c = 43
      · rw [if_pos hc43] at h
        by_cases hds : pyDigits ds = true
        · refine ⟨a, [43], ds, b, List.all_eq_true.mpr ha, Or.inr (Or.inl rfl), hds, hbs, ?_⟩
          rw [hs, hc43]; simp
        · rw [if_neg hds] at h; exact Option.noConfusion h
      · rw [if_neg hc43] at h
        by_cases hds : pyDigits (c :: ds) = true
        · exact ⟨a, [], c :: ds, b, List.all_eq_true.mpr ha, Or.inl rfl, hds, hbs,
            by rw [hs]; simp⟩
        · rw [if_neg hds] at h; exact Option.noConfusion h

/-- Computation of the `READ_COUNT` state on a line that does start
with `*`. -/
theorem readArgumentCount_star (rest : Bytes)
    (hall : ((42 : Nat) :: rest).all (· < 128) = true) :
    readArgumentCount (42 :: rest) =
      (match pyParseInt (rstrip rest) with
       | none => FrameStep.errorClose (errArgCountMsg ++ CRLF)
       | some n => if n > 0 then FrameStep.readArguments n else FrameStep.noopNext) := by
  have hda : decodeAscii ((42 : Nat) :: rest) = some (42 :: rest) := by
    rw [decodeAscii, if_pos hall]
  rw [readArgumentCount, hda]
  rfl

/-- C8, amended: a count line whose text after the leading `*` is not
accepted by `int(line[1:].rstrip())` (or that does not start with `*`
at all, or is not ASCII) draws the `READ_COUNT` error status and a
close.  `PyIntText` is exactly that acceptance set: `int()` whitespace,
an optional sign, digits with optional single underscores in between,
then trailing `str.rstrip` whitespace.  This is what the source's
`except ValueError` branch implements. -/
theorem c8_read_count_parse_failure (data : Bytes)
    (h : ¬ ∃ rest, data = 42 :: rest ∧ PyIntText rest) :
    readArgumentCount data = .errorClose (errArgCountMsg ++ CRLF) := by
  by_cases hall : data.all (· < 128)
  case neg =>
    have hda : decodeAscii data = none := by rw [decodeAscii, if_neg hall]
    rw [readArgumentCount, hda]
  case pos =>
    have hda : decodeAscii data = some data := by rw [decodeAscii, if_pos hall]
    cases hdata : data with
    | nil => rfl
    | cons c rest =>
      rw [hdata] at hda hall
      by_cases hc : c = 42
      · subst hc
        cases hp : pyParseInt (rstrip rest) with
        | none =>
          rw [readArgumentCount_star rest hall, hp]
        | some n =>
          exfalso
          apply h
          rw [hdata]
          refine ⟨rest, rfl, ?_⟩
          have hshape := pyParseInt_shape hp
          obtain ⟨a, sgn, ds, b, ha, hsgn, hdig, hb, hr⟩ := hshape
          have hsplit : ∃ w, rest = rstrip rest ++ w ∧ ∀ x ∈ w, isStrSpaceB x = true := by
            refine ⟨(rest.reverse.takeWhile isStrSpaceB).reverse, ?_, ?_⟩
            · rw [rstrip]
              have h2 : rest.reverse = rest.reverse.takeWhile isStrSpaceB ++
                  rest.reverse.dropWhile isStrSpaceB := by
                rw [List.takeWhile_append_dropWhile]
              have h3 := congrArg List.reverse h2
              rw [List.reverse_reverse, List.reverse_append] at h3
              exact h3
            · intro x hx; exact List.mem_takeWhile_imp (List.mem_reverse.mp hx)
          obtain ⟨w, hw, hwsp⟩ := hsplit
          refine ⟨a, sgn, ds, b ++ w, ha, hsgn, hdig, ?_, ?_⟩
          · rw [List.all_append, Bool.and_eq_true]
            exact ⟨hb, List.all_eq_true.mpr hwsp⟩
          · rw [hw, hr]
            simp [List.append_assoc]
      · have hgoal : readArgumentCount (c :: rest) =
            if c ≠ 42 then .errorClose (errArgCountMsg ++ CRLF)
            else
              match pyParseInt (rstrip rest) with
              | none => .errorClose (errArgCountMsg ++ CRLF)
              | some n => if n > 0 then .readArguments n else .noopNext := by
          rw [readArgumentCount, hda]
        rw [hgoal, if_pos hc]

/-- C8, the claim as stated is refuted by the line `"* 1\r\n"`: it does
not consist of `*` followed by a decimal integer, yet the reader
accepts it (Python's `int(" 1")` is 1) and reads one argument instead
of erroring and closing. -/
theorem c8_counterexample :
    ¬ ClaimCountLine [42, 32, 49, 13, 10] ∧
      readArgumentCount [42, 32, 49, 13, 10] = .readArguments 1 ∧
      ∀ m, readArgumentCount [42, 32, 49, 13, 10] ≠ .errorClose m := by
  refine ⟨?_, by decide, ?_⟩
  · rintro ⟨sgn, ds, hsgn, hne, hdig, heq⟩
    have htl : (sgn ++ ds) ++ CRLF = [32, 49, 13, 10] := by
      have := heq.symm
      simpa using this
    have hhead : ((sgn ++ ds) ++ CRLF).head? = some 32 := by rw [htl]; rfl
    rcases hsgn with rfl | rfl
    · simp only [List.nil_append] at htl hhead
      cases ds with
      | nil => exact hne rfl
      | cons d t =>
        have hd32 : d = 32 := by simp at hhead; exact hhead
        have hd := List.all_eq_true.mp hdig d (by simp)
        rw [hd32] at hd
        simp [isDigitB] at hd
    · simp at hhead
  · intro m hm
    have h2 : readArgumentCount [42, 32, 49, 13, 10] = .readArguments 1 := by decide
    rw [h2] at hm
    exact FrameStep.noConfusion hm

/-- C9: a well-formed count line `*n` CRLF with `n ≤ 0` — negative
included — completes a no-op request: no error, no argument reads, the
connection just proceeds to the next request. -/
theorem c9_nonpositive_count_noop (n : Int) (hn : n ≤ 0) :
    readArgumentCount (42 :: intDigits n ++ CRLF) = .noopNext := by
  have hdig : ∀ b ∈ intDigits n, (b = 45 ∨ (48 ≤ b ∧ b ≤ 57)) := by
    intro b hb
    rw [intDigits] at hb
    split at hb
    · rcases List.mem_cons.mp hb with h | h
      · exact Or.inl h
      · have h2 := List.all_eq_true.mp (natDigits_all_digit _) b h
        simp only [isDigitB, Bool.and_eq_true, decide_eq_true_eq] at h2
        exact Or.inr h2
    · have h2 := List.all_eq_true.mp (natDigits_all_digit _) b hb
      simp only [isDigitB, Bool.and_eq_true, decide_eq_true_eq] at h2
      exact Or.inr h2
  have hall : ((42 : Nat) :: (intDigits n ++ CRLF)).all (· < 128) = true := by
    rw [List.all_eq_true]
    intro b hb
    simp only [List.mem_cons, List.mem_append] at hb
    rcases hb with rfl | h | h
    · decide
    · have := hdig b h
      simp only [decide_eq_true_eq]
      omega
    · have : b = 13 ∨ b = 10 := by simpa [CRLF] using h
      rcases this with rfl | rfl <;> decide
  rw [List.cons_append, readArgumentCount_star (intDigits n ++ CRLF) hall]
  have hwsCRLF : ∀ b ∈ CRLF, isStrSpaceB b = true := by decide
  have hnosp : ∀ b ∈ intDigits n, isStrSpaceB b = false := by
    intro b hb
    exact isStrSpaceB_eq_false_of (hdig b hb)
  rw [rstrip_append_ws hwsCRLF, rstrip_eq_self_of hnosp, pyParseInt_intDigits]
  show (if n > 0 then FrameStep.readArguments n else FrameStep.noopNext) = FrameStep.noopNext
  have hng : ¬ (n > 0) := by omega
  rw [if_neg hng]

/-- C9 witness: the count line `*-2` CRLF is a no-op. -/
theorem c9_nonpositive_count_noop_witness :
    (-2 : Int) ≤ 0 ∧ readArgumentCount (42 :: intDigits (-2) ++ CRLF) = .noopNext :=
  ⟨by decide, c9_nonpositive_count_noop (-2) (by decide)⟩

/-- C8 witness: the line `"PING\r\n"` does not start with `*`, and the
reader answers with the `READ_COUNT` error and closes. -/
theorem c8_read_count_parse_failure_witness :
    (¬ ∃ rest, ([80, 73, 78, 71, 13, 10] : Bytes) = 42 :: rest ∧ PyIntText rest) ∧
      readArgumentCount [80, 73, 78, 71, 13, 10] = .errorClose (errArgCountMsg ++ CRLF) := by
  have h : ¬ ∃ rest, ([80, 73, 78, 71, 13, 10] : Bytes) = 42 :: rest ∧ PyIntText rest := by
    rintro ⟨rest, heq, -⟩
    simp at heq
  exact ⟨h, c8_read_count_parse_failure _ h⟩

/-! ## Command dispatcher: C2, C4, C6, C7 -/

/-- C4 (code bug): dispatch does uppercase the token (`ping` and `PING`
reach the same handler), but the unknown-command arm concatenates
`b"ERR Unknown command: "` with the reply *object* `command` instead of
its `.data` bytes: the `TypeError` escapes `_on_read_request` (an
exception raised inside an `except` clause is not caught by the later
bare `except`), so no Error reply is produced at all. -/
theorem c4_unknown_command_crashes :
    (∀ args, handle baseHandlers (ascii "ping") args = handle baseHandlers (ascii "PING") args) ∧
      (∀ args, onReadRequest baseHandlers (Reply.bulk (ascii "FOO") :: args) =
        .crash) := by
  constructor
  · intro args
    rfl
  · intro args
    rfl

/-- C2, counterexample to the claim as stated: the usage error for
`PING` with an argument is built as `ErrorReply(data=...)` whose `quit`
flag defaults to `True`, so the reply path does not keep the connection
open — it evaluates the nonexistent `self._read_reader.close` and dies
with `AttributeError` before writing anything. -/
theorem c2_counterexample :
    onReadRequest baseHandlers [Reply.bulk (ascii "PING"), Reply.bulk (ascii "x")] =
        .reply (mkError (ascii "ERR Expected> PING")) ∧
      (mkError (ascii "ERR Expected> PING")).quit = true ∧
      streamReply (mkError (ascii "ERR Expected> PING")) = .attrError := by
  refine ⟨rfl, rfl, rfl⟩

/-- Computation of `_on_read_request` once the command token's `.data`
is known. -/
theorem onReadRequest_eq
    (handlers : Bytes → Option (List Reply → Except PyExc SReply))
    (cmd : Reply) (cmdB : Bytes) (args : List Reply)
    (hcmd : dataOf cmd = some cmdB) :
    onReadRequest handlers (cmd :: args) =
      (match handle handlers cmdB args with
       | .ok r => .reply r
       | .error (.commandError d) => .reply (mkError d)
       | .error .unknownCommand => .crash
       | .error _ => .reply (mkError internalErrMsg)) := by
  rw [onReadRequest, hcmd]

/-- C2, amended: a `CommandError` becomes an Error reply with the
close-after-send flag set (the `ErrorReply` default), and the reply
path for any close-flagged reply raises `AttributeError` instead of
keeping the connection open; any other handler exception becomes the
close-flagged internal error the same way; an unknown command crashes
with no reply at all. -/
theorem c2_errors_do_not_keep_connection_open
    (handlers : Bytes → Option (List Reply → Except PyExc SReply))
    (cmd : Reply) (cmdB : Bytes) (args : List Reply) (d : Bytes)
    (hcmd : dataOf cmd = some cmdB) :
    (handle handlers cmdB args = .error (.commandError d) →
      onReadRequest handlers (cmd :: args) = .reply (mkError d) ∧
        streamReply (mkError d) = .attrError) ∧
    (handle handlers cmdB args = .error .pyError →
      onReadRequest handlers (cmd :: args) = .reply (mkError internalErrMsg) ∧
        streamReply (mkError internalErrMsg) = .attrError) ∧
    (handle handlers cmdB args = .error .unknownCommand →
      onReadRequest handlers (cmd :: args) = .crash) := by
  refine ⟨fun h => ⟨?_, rfl⟩, fun h => ⟨?_, rfl⟩, fun h => ?_⟩ <;>
    rw [onReadRequest_eq handlers cmd cmdB args hcmd, h]

/-- C2 witness: the amended statement at the concrete `PING x` request. -/
theorem c2_errors_do_not_keep_connection_open_witness :
    dataOf (Reply.bulk (ascii "PING")) = some (ascii "PING") ∧
      handle baseHandlers (ascii "PING") [Reply.bulk (ascii "x")] =
        .error (.commandError (ascii "ERR Expected> PING")) ∧
      onReadRequest baseHandlers [Reply.bulk (ascii "PING"), Reply.bulk (ascii "x")] =
        .reply (mkError (ascii "ERR Expected> PING")) ∧
      streamReply (mkError (ascii "ERR Expected> PING")) = .attrError := by
  refine ⟨rfl, rfl, ?_⟩
  exact (c2_errors_do_not_keep_connection_open baseHandlers (Reply.bulk (ascii "PING"))
    (ascii "PING") [Reply.bulk (ascii "x")] (ascii "ERR Expected> PING") rfl).1 rfl

/-- C6, counterexample to the claim as stated: `QUIT` with an argument
is a usage error, not `Status "OK Bye!"`; and a close-flagged reply
(the no-argument `QUIT` reply included) never reaches the client — the
write callback evaluates the nonexistent `self._read_reader.close` and
raises `AttributeError` before the reply is flushed. -/
theorem c6_counterexample :
    onReadRequest baseHandlers [Reply.bulk (ascii "QUIT"), Reply.bulk (ascii "x")] =
        .reply (mkError (ascii "ERR Expected> QUIT")) ∧
      streamReply ⟨.status (ascii "OK Bye!"), true⟩ = .attrError := by
  exact ⟨rfl, rfl⟩

/-- C6, amended: `QUIT` with no arguments yields `Status "OK Bye!"`
with the close-after-send flag set, `QUIT` with arguments yields the
usage error; and the reply path for a close-flagged reply raises
`AttributeError` instead of flushing the reply and closing. -/
theorem c6_quit_reply (args : List Reply) :
    onReadRequest baseHandlers (Reply.bulk (ascii "QUIT") :: args) =
      (match args with
       | [] => .reply ⟨.status (ascii "OK Bye!"), true⟩
       | _ => .reply (mkError (ascii "ERR Expected> QUIT"))) ∧
    streamReply ⟨.status (ascii "OK Bye!"), true⟩ = .attrError := by
  cases args with
  | nil => exact ⟨rfl, rfl⟩
  | cons a t => exact ⟨rfl, rfl⟩

/-- C7 (code bug): on the shard command handler, `INFO` with no section
argument does not return the sections bulk at all — the overridden
`_get_info` takes no section parameter while `_on_info` passes one, so
the call raises `TypeError` and the dispatcher falls back to
`ERR Internal server error.` (and the module itself cannot even be
imported because of the syntax error in this very method). -/
theorem c7_shard_info_internal_error
    (addshard : List Reply → Except PyExc SReply) :
    onReadRequest (shardHandlers addshard) [Reply.bulk (ascii "INFO")] =
      .reply (mkError internalErrMsg) := by
  rfl

/-! ## ADDSHARD: C5 -/

/-- C5 (code bug): when the backend connection fails, `ADDSHARD host`
replies `ErrorReply(b"ERR Could not connect to the specified
instance.", quit=False)` — not the claimed `"ERR Could not connect to
the shard."` — and the cluster state is untouched (`shardAddShard`
raises before any registration).  On success the reply would be
`IntegerReply(value=state)`, not a `Status "OK Shard <id> is added"`.
The first two conjuncts evaluate the embedded code at the failing
input; the third records that the reply text differs from the claim's. -/
theorem c5_addshard_connection_error (cs : ClusterState) (setnxStored : Bool)
    (existingId newId : Bytes) (masterOk : Bool) :
    onAddShard cs ⟨false, setnxStored, existingId, newId, masterOk⟩
        [Reply.bulk (ascii "localhost")] =
      .ok (mkErrorStay (ascii "ERR Could not connect to the specified instance.")) ∧
    onReadRequest
        (shardHandlers
          (getHandlerWrap (onAddShard cs ⟨false, setnxStored, existingId, newId, masterOk⟩)))
        [Reply.bulk (ascii "ADDSHARD"), Reply.bulk (ascii "localhost")] =
      .reply (mkErrorStay (ascii "ERR Could not connect to the specified instance.")) ∧
    ascii "ERR Could not connect to the specified instance." ≠
      ascii "ERR Could not connect to the shard." := by
  refine ⟨rfl, rfl, by decide⟩

/-! ## RESP codec round trip: C3 -/

theorem noCRLF_of_ne13 {d : Bytes} (h : ∀ b ∈ d, b ≠ 13) : noCRLF d = true := by
  induction d with
  | nil => rfl
  | cons c t ih =>
    rw [noCRLF, if_neg]
    · exact ih (fun b hb => h b (by simp [hb]))
    · rintro ⟨hc, -⟩
      exact h c (by simp) hc

theorem noCRLF_natDigits (n : Nat) : noCRLF (natDigits n) = true := by
  refine noCRLF_of_ne13 (fun b hb => ?_)
  have := natDigits_not_crlf n b hb
  omega

theorem noCRLF_intDigits (v : Int) : noCRLF (intDigits v) = true := by
  refine noCRLF_of_ne13 (fun b hb => ?_)
  rw [intDigits] at hb
  split at hb
  · rcases List.mem_cons.mp hb with h | h
    · omega
    · have := natDigits_not_crlf _ b h
      omega
  · have := natDigits_not_crlf _ b hb
    omega

theorem readLine_append {d : Bytes} (rest : Bytes) (hd : noCRLF d = true) :
    readLine (d ++ 13 :: 10 :: rest) = some (d, rest) := by
  induction d with
  | nil =>
    rw [List.nil_append, readLine, if_pos ⟨rfl, rfl⟩]
    rfl
  | cons c t ih =>
    rw [List.cons_append, readLine, if_neg]
    · rw [noCRLF] at hd
      have ht : noCRLF t = true := by
        by_cases hcond : c = 13 ∧ t.head? = some 10
        · rw [if_pos hcond] at hd
          exact absurd hd (by simp)
        · rwa [if_neg hcond] at hd
      rw [ih ht]
      rfl
    · rintro ⟨hc13, hhead⟩
      cases t with
      | nil =>
        simp only [List.nil_append, List.head?_cons, Option.some.injEq] at hhead
        omega
      | cons b t2 =>
        simp only [List.cons_append, List.head?_cons, Option.some.injEq] at hhead
        rw [noCRLF, if_pos ⟨hc13, by rw [hhead]; rfl⟩] at hd
        exact absurd hd (by simp)

theorem decodeBulk_encoded (d tail : Bytes) :
    decodeBulk (36 :: (natDigits d.length ++ (13 :: 10 :: (d ++ (13 :: 10 :: tail))))) =
      some (.bulk d, tail) := by
  rw [decodeBulk]
  rw [readLine_append (d ++ (13 :: 10 :: tail)) (noCRLF_natDigits _)]
  simp only [pyParseInt_natDigits]
  rw [if_neg (by omega)]
  have htn : ((d.length : Int)).toNat = d.length := by omega
  rw [htn]
  rw [if_neg (by simp)]
  have hdrop : (d ++ (13 :: 10 :: tail)).drop d.length = 13 :: 10 :: tail :=
    List.drop_left d (13 :: 10 :: tail)
  have htake : (d ++ (13 :: 10 :: tail)).take d.length = d :=
    List.take_left d (13 :: 10 :: tail)
  simp only [hdrop, htake]

theorem decodeBulks_encoded (ds : List Bytes) (tail : Bytes) :
    decodeBulks ds.length
        ((ds.map (fun d => 36 :: (natDigits d.length ++ (13 :: 10 :: (d ++ [13, 10]))))).flatten
          ++ tail) =
      some (ds.map Reply.bulk, tail) := by
  induction ds generalizing tail with
  | nil => rfl
  | cons d t ih =>
    rw [List.length_cons, List.map_cons, List.flatten_cons, decodeBulks]
    have hassoc :
        (36 :: (natDigits d.length ++ (13 :: 10 :: (d ++ [13, 10])))) ++
            ((t.map (fun d => 36 :: (natDigits d.length ++ (13 :: 10 :: (d ++ [13, 10]))))).flatten
              ++ tail) =
          36 :: (natDigits d.length ++ (13 :: 10 ::
            (d ++ (13 :: 10 ::
              ((t.map (fun d => 36 :: (natDigits d.length ++ (13 :: 10 :: (d ++ [13, 10]))))).flatten
                ++ tail))))) := by
      simp [List.append_assoc]
    rw [List.append_assoc, hassoc, decodeBulk_encoded]
    simp only [ih, List.map_cons]

/-- The encoder on a list of bulks: every element has `.data`, so
`mapM` succeeds with the bulk encodings. -/
theorem mapM_encodeAsBulk (ds : List Bytes) :
    (ds.map Reply.bulk).mapM encodeAsBulk =
      some (ds.map (fun d => 36 :: (natDigits d.length ++ (13 :: 10 :: (d ++ [13, 10]))))) := by
  induction ds with
  | nil => rfl
  | cons d t ih =>
    rw [List.map_cons, List.map_cons, List.mapM_cons, ih]
    show (encodeAsBulk (Reply.bulk d)).bind _ = _
    rw [encodeAsBulk]
    simp [CRLF, List.append_assoc]

/-- C3 (spec-modelled decode for bulk and multi-bulk, whose readers are
stubs in the source): decoding the encoder's output returns the
original well-formed reply with no bytes left over. -/
theorem c3_encode_decode_roundtrip (r : Reply) (h : WellFormed r) :
    ∃ bs, encode r = some bs ∧ decode bs = some (r, []) := by
  cases r with
  | status d =>
    refine ⟨_, rfl, ?_⟩
    have hnorm : (43 :: d) ++ CRLF = 43 :: (d ++ 13 :: 10 :: []) := by simp [CRLF]
    rw [hnorm, decode, readLine_append [] h]
    rfl
  | error d =>
    refine ⟨_, rfl, ?_⟩
    have hnorm : (45 :: d) ++ CRLF = 45 :: (d ++ 13 :: 10 :: []) := by simp [CRLF]
    rw [hnorm, decode, readLine_append [] h]
    rfl
  | integer v =>
    refine ⟨_, rfl, ?_⟩
    have hnorm : (58 :: intDigits v) ++ CRLF = 58 :: (intDigits v ++ 13 :: 10 :: []) := by
      simp [CRLF]
    rw [hnorm, decode]
    simp only [readLine_append [] (noCRLF_intDigits v), pyParseInt_intDigits]
  | bulk d =>
    refine ⟨_, rfl, ?_⟩
    have hnorm : (36 :: natDigits d.length) ++ CRLF ++ d ++ CRLF =
        36 :: (natDigits d.length ++ (13 :: 10 :: (d ++ (13 :: 10 :: [])))) := by
      simp [CRLF, List.append_assoc]
    rw [hnorm]
    show decodeBulk (36 :: (natDigits d.length ++ (13 :: 10 :: (d ++ (13 :: 10 :: []))))) =
      some (Reply.bulk d, [])
    rw [decodeBulk_encoded d []]
  | null =>
    exact ⟨_, rfl, rfl⟩
  | multiBulk rs =>
    obtain ⟨ds, rfl⟩ : ∃ ds : List Bytes, rs = ds.map Reply.bulk := by
      induction rs with
      | nil => exact ⟨[], rfl⟩
      | cons r t ih =>
        obtain ⟨d, rfl⟩ := h r (by simp)
        obtain ⟨ds, rfl⟩ := ih (fun x hx => h x (by simp [hx]))
        exact ⟨d :: ds, rfl⟩
    have henc : encode (Reply.multiBulk (ds.map Reply.bulk)) =
        some ((42 :: natDigits (ds.map Reply.bulk).length) ++ CRLF ++
          ((ds.map (fun d => 36 :: (natDigits d.length ++ (13 :: 10 :: (d ++ [13, 10]))))).flatten)) := by
      show ((ds.map Reply.bulk).mapM encodeAsBulk).map _ = _
      rw [mapM_encodeAsBulk]
      rfl
    refine ⟨_, henc, ?_⟩
    have hnorm : (42 :: natDigits (ds.map Reply.bulk).length) ++ CRLF ++
        ((ds.map (fun d => 36 :: (natDigits d.length ++ (13 :: 10 :: (d ++ [13, 10]))))).flatten) =
        42 :: (natDigits (ds.map Reply.bulk).length ++ (13 :: 10 ::
          ((ds.map (fun d => 36 :: (natDigits d.length ++ (13 :: 10 :: (d ++ [13, 10]))))).flatten
            ++ []))) := by
      simp [CRLF, List.append_assoc]
    rw [hnorm, decode]
    simp only [readLine_append _ (noCRLF_natDigits _), pyParseInt_natDigits]
    rw [if_neg (by omega)]
    have htn : (((ds.map Reply.bulk).length : Int)).toNat = ds.length := by
      simp
    rw [htn, decodeBulks_encoded ds []]
    rfl

/-! ## Replicated engine round trip: C1 -/

theorem wrapData_ne_wrapTs (k : Bytes) : wrapData k ≠ wrapTs k := by
  intro h
  have := congrArg List.length h
  simp [wrapData, wrapTs, ascii] at this

theorem slookup_sinsert_self (st : Store) (k v : Bytes) :
    slookup (sinsert st k v) k = some v := by
  rw [sinsert, slookup, if_pos rfl]

theorem slookup_serase_self (st : Store) (k : Bytes) :
    slookup (serase st k) k = none := by
  induction st with
  | nil => rfl
  | cons p t ih =>
    rw [serase]
    by_cases hp : p.1 = k
    · rw [if_pos hp]
      exact ih
    · rw [if_neg hp, slookup, if_neg hp]
      exact ih

theorem slookup_serase_other (st : Store) {k k' : Bytes} (h : k' ≠ k) :
    slookup (serase st k) k' = slookup st k' := by
  induction st with
  | nil => rfl
  | cons p t ih =>
    rw [serase]
    by_cases hp : p.1 = k
    · rw [if_pos hp, slookup, if_neg (by rw [hp]; exact Ne.symm h)]
      exact ih
    · rw [if_neg hp, slookup, slookup]
      by_cases hp' : p.1 = k'
      · rw [if_pos hp', if_pos hp']
      · rw [if_neg hp', if_neg hp']
        exact ih

theorem slookup_sinsert_other (st : Store) {k k' : Bytes} (v : Bytes) (h : k' ≠ k) :
    slookup (sinsert st k v) k' = slookup st k' := by
  rw [sinsert, slookup, if_neg (fun hh => h hh.symm)]
  exact slookup_serase_other st h

theorem setShardTxn_store_true (sh : KVShard) (k vb : Bytes) (T : Nat) :
    (setShardTxn sh k (some vb) T true).store =
      sinsert (sinsert (serase (serase sh.store (wrapData k)) (wrapTs k)) (wrapData k) vb)
        (wrapTs k) (natDigits T) := rfl

theorem setShardTxn_store_false (sh : KVShard) (k : Bytes) (v : Option Bytes) (T : Nat) :
    (setShardTxn sh k v T false).store =
      serase (serase sh.store (wrapData k)) (wrapTs k) := rfl

/-- A write transaction with the replica flag set leaves the wrapped
pair `(V, str(T))` on the shard. -/
theorem setShardTxn_written (sh : KVShard) (k vb : Bytes) (T : Nat) :
    slookup (setShardTxn sh k (some vb) T true).store (wrapData k) = some vb ∧
      parseTs (setShardTxn sh k (some vb) T true) k = (T : Int) := by
  constructor
  · rw [setShardTxn_store_true,
      slookup_sinsert_other _ _ (wrapData_ne_wrapTs k), slookup_sinsert_self]
  · rw [parseTs, setShardTxn_store_true, slookup_sinsert_self]
    simp [pyParseInt_natDigits]

/-- A write transaction with the replica flag clear deletes the wrapped
pair, so a read parses timestamp 0 there. -/
theorem setShardTxn_cleared (sh : KVShard) (k : Bytes) (v : Option Bytes) (T : Nat) :
    parseTs (setShardTxn sh k v T false) k = 0 := by
  rw [parseTs, setShardTxn_store_false, slookup_serase_self]

/-- The per-shard outcome of the write path: each resulting shard
either carries the new value with timestamp `T` or parses a timestamp
strictly below `T`. -/
def SetOutcome (k vb : Bytes) (T : Nat) (sh : KVShard) : Prop :=
  (slookup sh.store (wrapData k) = some vb ∧ parseTs sh k = (T : Int)) ∨
    parseTs sh k < (T : Int)

theorem insertBySize_mem (x sh : KVShard) (L : List KVShard) :
    sh ∈ insertBySize x L ↔ sh = x ∨ sh ∈ L := by
  induction L with
  | nil => simp [insertBySize]
  | cons y t ih =>
    rw [insertBySize]
    by_cases hy : y.dbSize ≤ x.dbSize
    · rw [if_pos hy]
      simp only [List.mem_cons, ih]
      try tauto
    · rw [if_neg hy]
      simp only [List.mem_cons]
      try tauto

theorem sortBySize_mem (sh : KVShard) (L : List KVShard) :
    sh ∈ sortBySize L ↔ sh ∈ L := by
  induction L with
  | nil => simp [sortBySize]
  | cons x t ih =>
    rw [sortBySize, insertBySize_mem]
    simp only [List.mem_cons, ih]

theorem engineSet_fold_outcome (k vb : Bytes) (T : Nat) (hT : 0 < T)
    (avail : Bytes → Bool) (L : List KVShard) :
    ∀ acc : List KVShard × Nat,
      (∀ sh ∈ L, parseTs sh k < (T : Int)) →
      (∀ sh ∈ acc.1, SetOutcome k vb T sh) →
      (∀ sh ∈ (L.foldl
        (fun (acc : List KVShard × Nat) sh =>
          if avail sh.sid then
            (acc.1 ++ [setShardTxn sh k (some vb) T (acc.2 > 0)], acc.2 - 1)
          else (acc.1 ++ [sh], acc.2))
        acc).1, SetOutcome k vb T sh) := by
  induction L with
  | nil => intro acc _ hacc; exact hacc
  | cons sh0 t ih =>
    intro acc hL hacc
    rw [List.foldl_cons]
    refine ih _ (fun sh hsh => hL sh (by simp [hsh])) ?_
    by_cases hav : avail sh0.sid
    · rw [if_pos hav]
      intro sh hsh
      rcases List.mem_append.mp hsh with h | h
      · exact hacc sh h
      · have hsh0 : sh = setShardTxn sh0 k (some vb) T (acc.2 > 0) := by simpa using h
        subst hsh0
        by_cases hrem : acc.2 > 0
        · rw [show (decide (acc.2 > 0)) = true from decide_eq_true hrem]
          exact Or.inl (setShardTxn_written sh0 k vb T)
        · rw [show (decide (acc.2 > 0)) = false from decide_eq_false hrem]
          refine Or.inr ?_
          rw [setShardTxn_cleared]
          exact_mod_cast hT
    · rw [if_neg hav]
      intro sh hsh
      rcases List.mem_append.mp hsh with h | h
      · exact hacc sh h
      · have hsh0 : sh = sh0 := by simpa using h
        subst hsh0
        exact Or.inr (hL sh (by simp))

theorem engineSet_fold_written (k vb : Bytes) (T : Nat) (avail : Bytes → Bool)
    (L : List KVShard) (R : Nat) :
    ∀ acc : List KVShard × Nat,
      acc.2 ≤ R →
      (acc.2 < R → ∃ sh ∈ acc.1,
        slookup sh.store (wrapData k) = some vb ∧ parseTs sh k = (T : Int)) →
      ((L.foldl
        (fun (acc : List KVShard × Nat) sh =>
          if avail sh.sid then
            (acc.1 ++ [setShardTxn sh k (some vb) T (acc.2 > 0)], acc.2 - 1)
          else (acc.1 ++ [sh], acc.2))
        acc).2 ≤ R ∧
      ((L.foldl
        (fun (acc : List KVShard × Nat) sh =>
          if avail sh.sid then
            (acc.1 ++ [setShardTxn sh k (some vb) T (acc.2 > 0)], acc.2 - 1)
          else (acc.1 ++ [sh], acc.2))
        acc).2 < R → ∃ sh ∈ (L.foldl
        (fun (acc : List KVShard × Nat) sh =>
          if avail sh.sid then
            (acc.1 ++ [setShardTxn sh k (some vb) T (acc.2 > 0)], acc.2 - 1)
          else (acc.1 ++ [sh], acc.2))
        acc).1,
        slookup sh.store (wrapData k) = some vb ∧ parseTs sh k = (T : Int))) := by
  induction L with
  | nil => intro acc h1 h2; exact ⟨h1, h2⟩
  | cons sh0 t ih =>
    intro acc h1 h2
    rw [List.foldl_cons]
    by_cases hav : avail sh0.sid
    · rw [if_pos hav]
      refine ih _ (by omega) ?_
      intro _
      by_cases hrem : acc.2 > 0
      · refine ⟨setShardTxn sh0 k (some vb) T (acc.2 > 0), by simp, ?_⟩
        rw [show (decide (acc.2 > 0)) = true from decide_eq_true hrem]
        exact setShardTxn_written sh0 k vb T
      · obtain ⟨sh, hmem, hgood⟩ := h2 (by omega)
        exact ⟨sh, by simp [hmem], hgood⟩
    · rw [if_neg hav]
      refine ih _ h1 ?_
      intro hlt
      obtain ⟨sh, hmem, hgood⟩ := h2 hlt
      exact ⟨sh, by simp [hmem], hgood⟩

/-- The accumulator step of the read path with every shard reachable. -/
def getStep (k : Bytes) (acc : Int × Option (Option Bytes)) (sh : KVShard) :
    Int × Option (Option Bytes) :=
  if parseTs sh k > acc.1 then (parseTs sh k, some (slookup sh.store (wrapData k))) else acc

theorem engineGet_fold_finds (k vb : Bytes) (T : Nat)
    (L : List KVShard) :
    ∀ acc : Int × Option (Option Bytes),
      (∀ sh ∈ L, SetOutcome k vb T sh) →
      acc.1 ≤ (T : Int) →
      (acc.1 = (T : Int) → acc.2 = some (some vb)) →
      ((∃ sh ∈ L, parseTs sh k = (T : Int)) ∨ acc.1 = (T : Int)) →
      ((L.foldl (getStep k) acc).1 = (T : Int) ∧
        (L.foldl (getStep k) acc).2 = some (some vb)) := by
  induction L with
  | nil =>
    intro acc _ h1 h2 h3
    rcases h3 with ⟨sh, hsh, -⟩ | h3
    · exact absurd hsh (by simp)
    · exact ⟨h3, h2 h3⟩
  | cons sh0 t ih =>
    intro acc hall h1 h2 h3
    rw [List.foldl_cons]
    have hallt : ∀ sh ∈ t, SetOutcome k vb T sh := fun sh hsh => hall sh (by simp [hsh])
    rcases hall sh0 (by simp) with ⟨hdata, hts⟩ | hlow
    · -- this shard carries the new value: afterwards the accumulator is at T
      by_cases hgt : parseTs sh0 k > acc.1
      · rw [getStep, if_pos hgt, hts, hdata]
        exact ih _ hallt (le_refl _) (fun _ => rfl) (Or.inr rfl)
      · have hacc : acc.1 = (T : Int) := by
          rw [hts] at hgt
          omega
        rw [getStep, if_neg hgt]
        exact ih _ hallt h1 h2 (Or.inr hacc)
    · -- stale or cleared shard: the accumulator stays at most T
      have h3' : (∃ sh ∈ t, parseTs sh k = (T : Int)) ∨ acc.1 = (T : Int) := by
        rcases h3 with ⟨sh, hsh, hts⟩ | h3
        · rcases List.mem_cons.mp hsh with rfl | hsh'
          · exact absurd hts (by omega)
          · exact Or.inl ⟨sh, hsh', hts⟩
        · exact Or.inr h3
      by_cases hgt : parseTs sh0 k > acc.1
      · rw [getStep, if_pos hgt]
        refine ih _ hallt (le_of_lt hlow) (fun heq => absurd heq (by omega)) ?_
        rcases h3' with h | h
        · exact Or.inl h
        · exact absurd h (by omega)
      · rw [getStep, if_neg hgt]
        exact ih _ hallt h1 h2 h3'

/-- C1 (modelled from the spec, §4.3.2–§4.3.3: the final `Shard` class
with `set`/`get` exists in this revision only through its tests): a
successful `SET(K,V)` with no intervening writer is read back by
`GET(K)` against the same registry.  `0 < T` and the bound on the
pre-existing timestamps express that the single writer's clock is
monotone; the read polls all shards. -/
theorem c1_set_get_roundtrip (shards : List KVShard) (R T : Nat) (k vb : Bytes)
    (avail : Bytes → Bool) (hT : 0 < T)
    (hold : ∀ sh ∈ shards, parseTs sh k < (T : Int))
    (hok : (engineSet shards R T k (some vb) avail).2 = true) :
    engineGet (engineSet shards R T k (some vb) avail).1 k (fun _ => true) = some vb := by
  have hold' : ∀ sh ∈ sortBySize shards, parseTs sh k < (T : Int) := by
    intro sh hsh
    exact hold sh ((sortBySize_mem sh shards).mp hsh)
  have hout := engineSet_fold_outcome k vb T hT avail (sortBySize shards) ([], R) hold'
    (by simp)
  have hwr := engineSet_fold_written k vb T avail (sortBySize shards) R ([], R) (le_refl R)
    (by omega)
  rw [engineSet] at hok
  simp only [decide_eq_true_eq] at hok
  obtain ⟨sh, hmem, hdata, hts⟩ := hwr.2 hok
  have hget := engineGet_fold_finds k vb T _ (0, none) hout
    (by show (0 : Int) ≤ (T : Int); exact_mod_cast Nat.zero_le T)
    (by
      intro h0
      exfalso
      have h0' : (0 : Int) = (T : Int) := h0
      omega)
    (Or.inl ⟨sh, hmem, hts⟩)
  have hdef : engineGet (engineSet shards R T k (some vb) avail).1 k (fun _ => true) =
      (match (((engineSet shards R T k (some vb) avail).1).foldl (getStep k) (0, none)).2 with
       | some (some d) => some d
       | _ => none) := rfl
  rw [hdef]
  have hfold : (engineSet shards R T k (some vb) avail).1 =
      ((sortBySize shards).foldl
        (fun (acc : List KVShard × Nat) sh =>
          if avail sh.sid then
            (acc.1 ++ [setShardTxn sh k (some vb) T (acc.2 > 0)], acc.2 - 1)
          else (acc.1 ++ [sh], acc.2))
        ([], R)).1 := rfl
  rw [hfold]
  rw [hget.2]

/-- C1 witness: one empty shard, replicaness 1, timestamp 1. -/
theorem c1_set_get_roundtrip_witness :
    (0 < 1) ∧
      (∀ sh ∈ [KVShard.mk (ascii "a") [] 0], parseTs sh (ascii "k") < ((1 : Nat) : Int)) ∧
      (engineSet [KVShard.mk (ascii "a") [] 0] 1 1 (ascii "k") (some (ascii "x"))
        (fun _ => true)).2 = true ∧
      engineGet (engineSet [KVShard.mk (ascii "a") [] 0] 1 1 (ascii "k") (some (ascii "x"))
        (fun _ => true)).1 (ascii "k") (fun _ => true) = some (ascii "x") := by
  refine ⟨by decide, ?_, by decide, ?_⟩
  · intro sh hsh
    have : sh = KVShard.mk (ascii "a") [] 0 := by simpa using hsh
    subst this
    decide
  · exact c1_set_get_roundtrip [KVShard.mk (ascii "a") [] 0] 1 1 (ascii "k") (ascii "x")
      (fun _ => true) (by decide)
      (by
        intro sh hsh
        have : sh = KVShard.mk (ascii "a") [] 0 := by simpa using hsh
        subst this
        decide)
      (by decide)

/-- C3 witness: a concrete multi-bulk of bulks is well formed and round
trips. -/
theorem c3_encode_decode_roundtrip_witness :
    WellFormed (Reply.multiBulk [Reply.bulk (ascii "foo"), Reply.bulk (ascii "ba r")]) ∧
      ∃ bs, encode (Reply.multiBulk [Reply.bulk (ascii "foo"), Reply.bulk (ascii "ba r")]) =
          some bs ∧
        decode bs = some (Reply.multiBulk [Reply.bulk (ascii "foo"),
          Reply.bulk (ascii "ba r")], []) := by
  have h : WellFormed (Reply.multiBulk [Reply.bulk (ascii "foo"), Reply.bulk (ascii "ba r")]) := by
    intro r hr
    simp only [List.mem_cons, List.mem_singleton, List.not_mem_nil, or_false] at hr
    rcases hr with rfl | rfl
    · exact ⟨_, rfl⟩
    · exact ⟨_, rfl⟩
  exact ⟨h, c3_encode_decode_roundtrip _ h⟩

/-! ## Heap theory: order, index and permutation lemmas -/

theorem leB_refl {α : Type} {lt : α → α → Bool} (laws : LtLaws lt) (a : α) : leB lt a a := by
  unfold leB
  cases h : lt a a
  · rfl
  · have h2 := laws.asymm a a h
    simp [h2] at h

theorem leB_of_lt {α : Type} {lt : α → α → Bool} (laws : LtLaws lt) {a b : α}
    (h : lt a b = true) : leB lt a b :=
  laws.asymm a b h

theorem leB_of_not_lt {α : Type} {lt : α → α → Bool} {a b : α}
    (h : lt a b = false) : leB lt b a := h

theorem Desc.le : ∀ {i j : Nat}, Desc i j → i ≤ j := by
  intro i j h
  induction h with
  | refl => exact Nat.le_refl _
  | left _ ih => omega
  | right _ ih => omega

theorem Desc.child {i j : Nat} (h : IsChild i j) : Desc i j := by
  rcases h with rfl | rfl
  · exact .left (.refl _)
  · exact .right (.refl _)

theorem Desc.trans : ∀ {i j k : Nat}, Desc i j → Desc j k → Desc i k := by
  intro i j k h1
  induction h1 with
  | refl => exact fun h => h
  | left _ ih => exact fun h => .left (ih h)
  | right _ ih => exact fun h => .right (ih h)

theorem child_lt {i j : Nat} (h : IsChild i j) : i < j := by
  rcases h with rfl | rfl <;> omega

theorem parent_isChild {j : Nat} (hj : 0 < j) : IsChild (parentIdx j) j := by
  unfold IsChild parentIdx
  omega

theorem Desc.to_parent : ∀ {i j : Nat}, Desc i j → i ≠ j → Desc i (parentIdx j) ∧ 0 < j := by
  intro i j h
  induction h with
  | refl => exact fun hne => absurd rfl hne
  | @left i k h ih =>
    intro _
    by_cases hk : 2 * i + 1 = k
    · subst hk
      refine ⟨?_, by omega⟩
      have hp : parentIdx (2 * i + 1) = i := by unfold parentIdx; omega
      rw [hp]
      exact .refl _
    · obtain ⟨h1, h2⟩ := ih hk
      exact ⟨.left h1, h2⟩
  | @right i k h ih =>
    intro _
    by_cases hk : 2 * i + 2 = k
    · subst hk
      refine ⟨?_, by omega⟩
      have hp : parentIdx (2 * i + 2) = i := by unfold parentIdx; omega
      rw [hp]
      exact .refl _
    · obtain ⟨h1, h2⟩ := ih hk
      exact ⟨.right h1, h2⟩

theorem desc_linear : ∀ (j i r : Nat), Desc i j → Desc r j → Desc i r ∨ Desc r i := by
  intro j
  induction j using Nat.strong_induction_on with
  | _ j ih =>
    intro i r h1 h2
    by_cases hij : i = j
    · exact Or.inr (hij ▸ h2)
    by_cases hrj : r = j
    · exact Or.inl (hrj ▸ h1)
    obtain ⟨p1, hj⟩ := Desc.to_parent h1 hij
    obtain ⟨p2, _⟩ := Desc.to_parent h2 hrj
    have hlt : parentIdx j < j := by unfold parentIdx; omega
    exact ih (parentIdx j) hlt i r p1 p2

theorem set_eq_self_of_get? {α : Type} {L : List α} {i : Nat} {a : α}
    (h : L.get? i = some a) : L.set i a = L := by
  apply List.ext_get?
  intro n
  by_cases hn : i = n
  · subst hn
    rw [List.get?_set_eq_of_lt _ (List.get?_eq_some.mp h).1]
    exact h.symm
  · exact List.get?_set_ne _ _ hn

theorem cons_set_perm {α : Type} :
    ∀ (l : List α) (k : Nat) (a b : α), l.get? k = some a →
      List.Perm (a :: l.set k b) (b :: l) := by
  intro l
  induction l with
  | nil => intro k a b h; simp at h
  | cons c t ih =>
    intro k a b h
    cases k with
    | zero =>
      injection h with h
      show List.Perm (a :: b :: t) (b :: c :: t)
      rw [h]
      exact List.Perm.swap b a t
    | succ k =>
      show List.Perm (a :: c :: t.set k b) (b :: c :: t)
      exact List.Perm.trans (List.Perm.swap c a _)
        (List.Perm.trans (List.Perm.cons c (ih k a b h)) (List.Perm.swap b c t))

theorem set_swap_perm_lt {α : Type} :
    ∀ (M : List α) (i j : Nat) (x p : α), i < j →
      M.get? i = some x → M.get? j = some p →
      List.Perm ((M.set i p).set j x) M := by
  intro M
  induction M with
  | nil => intro i j x p hij hi hj; simp at hi
  | cons c t ih =>
    intro i j x p hij hi hj
    cases i with
    | zero =>
      injection hi with hc
      obtain ⟨k, rfl⟩ : ∃ k, j = k + 1 := ⟨j - 1, by omega⟩
      show List.Perm (p :: t.set k x) (c :: t)
      rw [hc]
      exact cons_set_perm t k p x hj
    | succ i =>
      obtain ⟨k, rfl⟩ : ∃ k, j = k + 1 := ⟨j - 1, by omega⟩
      show List.Perm (c :: (t.set i p).set k x) (c :: t)
      exact List.Perm.cons c (ih i k x p (by omega) hi hj)

theorem set_swap_perm {α : Type} (M : List α) (i j : Nat) (x p : α) (hij : i ≠ j)
    (hi : M.get? i = some x) (hj : M.get? j = some p) :
    List.Perm ((M.set i p).set j x) M := by
  rcases Nat.lt_or_ge i j with h | h
  · exact set_swap_perm_lt M i j x p h hi hj
  · have hji : j < i := by omega
    rw [List.set_comm _ _ _ hij]
    exact set_swap_perm_lt M j i p x hji hj hi

theorem leAt_congr {α : Type} {lt : α → α → Bool} {L L' : List α} {i j : Nat}
    (hi : L.get? i = L'.get? i) (hj : L.get? j = L'.get? j)
    (h : leAt lt L i j) : leAt lt L' i j := by
  intro x y hx hy
  exact h x y (hi.trans hx) (hj.trans hy)

theorem leAt_trans {α : Type} {lt : α → α → Bool} (laws : LtLaws lt) {L : List α}
    {a b c : Nat} (hbc : b ≤ c) (h1 : leAt lt L a b) (h2 : leAt lt L b c) :
    leAt lt L a c := by
  intro x z hx hz
  have hc : c < L.length := (List.get?_eq_some.mp hz).1
  have hb : b < L.length := by omega
  obtain ⟨y, hy⟩ : ∃ y, L.get? b = some y := ⟨_, List.get?_eq_get hb⟩
  exact laws.leTrans x y z (h1 x y hx hy) (h2 y z hy hz)

theorem HeapAt.sub {α : Type} {lt : α → α → Bool} {L : List α} {s r : Nat}
    (h : HeapAt lt L s) (hd : Desc s r) : HeapAt lt L r :=
  fun i j hdi hc => h i j (Desc.trans hd hdi) hc

theorem heapAt_root_le {α : Type} {lt : α → α → Bool} (laws : LtLaws lt) {L : List α} :
    ∀ {s j : Nat}, HeapAt lt L s → Desc s j → leAt lt L s j := by
  intro s j h hd
  revert h
  induction hd with
  | refl i =>
    intro _ x y hx hy
    rw [hx] at hy
    injection hy with hy
    subst hy
    exact leB_refl laws x
  | @left i k h' ih =>
    intro h
    have h1 : leAt lt L (2 * i + 1) k := ih (h.sub (Desc.child (Or.inl rfl)))
    have h0 : leAt lt L i (2 * i + 1) := h i (2 * i + 1) (.refl _) (Or.inl rfl)
    exact leAt_trans laws (Desc.le h') h0 h1
  | @right i k h' ih =>
    intro h
    have h1 : leAt lt L (2 * i + 2) k := ih (h.sub (Desc.child (Or.inr rfl)))
    have h0 : leAt lt L i (2 * i + 2) := h i (2 * i + 2) (.refl _) (Or.inr rfl)
    exact leAt_trans laws (Desc.le h') h0 h1

theorem heapAt_congr {α : Type} {lt : α → α → Bool} {L L' : List α} {s : Nat}
    (hval : ∀ q, Desc s q → L.get? q = L'.get? q) (h : HeapAt lt L s) :
    HeapAt lt L' s := by
  intro i j hdi hc
  have hdj : Desc s j := Desc.trans hdi (Desc.child hc)
  exact leAt_congr (hval i hdi) (hval j hdj) (h i j hdi hc)

theorem siftdownLoop_eq_stop {α : Type} (lt : α → α → Bool) (newitem : α) (L : List α)
    (startpos pos : Nat) (h : ¬ startpos < pos) :
    siftdownLoop lt newitem L startpos pos = (L, pos) := by
  rw [siftdownLoop]
  exact dif_neg h

theorem siftdownLoop_eq_settle {α : Type} (lt : α → α → Bool) (newitem : α) (L : List α)
    (startpos pos : Nat) (parent : α) (h : startpos < pos)
    (hp : L.get? ((pos - 1) / 2) = some parent) (hn : lt newitem parent = false) :
    siftdownLoop lt newitem L startpos pos = (L, pos) := by
  have hp2 : L[(pos - 1) / 2]? = some parent := by simpa using hp
  rw [siftdownLoop]
  simp [h, hp2, hn]

theorem siftdownLoop_eq_up {α : Type} (lt : α → α → Bool) (newitem : α) (L : List α)
    (startpos pos : Nat) (parent : α) (h : startpos < pos)
    (hp : L.get? ((pos - 1) / 2) = some parent) (hy : lt newitem parent = true) :
    siftdownLoop lt newitem L startpos pos =
      siftdownLoop lt newitem (L.set pos parent) startpos ((pos - 1) / 2) := by
  have hp2 : L[(pos - 1) / 2]? = some parent := by simpa using hp
  rw [siftdownLoop]
  simp [h, hp2, hy]

theorem siftdownLoop_spec {α : Type} {lt : α → α → Bool} (laws : LtLaws lt) (newitem : α) :
    ∀ (pos : Nat) (L : List α) (startpos : Nat),
      pos < L.length →
      Desc startpos pos →
      (∀ i j, Desc startpos i → IsChild i j → j ≠ pos → leAt lt (L.set pos newitem) i j) →
      (pos ≠ startpos → ∀ j, IsChild pos j →
        leAt lt (L.set pos newitem) (parentIdx pos) j) →
      ∀ R k, siftdownLoop lt newitem L startpos pos = (R, k) →
        HeapAt lt (R.set k newitem) startpos ∧
        List.Perm (R.set k newitem) (L.set pos newitem) ∧
        R.length = L.length ∧
        Desc startpos k ∧ k < L.length ∧
        (∀ q, ¬ Desc startpos q →
          (R.set k newitem).get? q = (L.set pos newitem).get? q) := by
  intro pos
  induction pos using Nat.strong_induction_on with
  | _ pos ih =>
    intro L startpos h1 h2 h3 h4 R k hRk
    by_cases hlt : startpos < pos
    · have hpplt : (pos - 1) / 2 < pos := by omega
      have hpplen : (pos - 1) / 2 < L.length := by omega
      obtain ⟨parent, hp⟩ : ∃ p, L.get? ((pos - 1) / 2) = some p :=
        ⟨_, List.get?_eq_get hpplen⟩
      have hchildpp : ∀ i, IsChild i pos → i = (pos - 1) / 2 := by
        intro i hc
        unfold IsChild at hc
        omega
      have hppne : (pos - 1) / 2 ≠ pos := by omega
      cases hcmp : lt newitem parent with
      | false =>
        rw [siftdownLoop_eq_settle lt newitem L startpos pos parent hlt hp hcmp] at hRk
        injection hRk with hR hk
        subst hR
        subst hk
        refine ⟨?_, List.Perm.refl _, rfl, h2, h1, fun q _ => rfl⟩
        intro i j hdi hc
        by_cases hj : j = pos
        · subst hj
          have hi := hchildpp i hc
          subst hi
          intro x y hx hy
          rw [List.get?_set_ne _ _ (Ne.symm hppne), hp] at hx
          rw [List.get?_set_eq_of_lt _ h1] at hy
          injection hx with hx
          injection hy with hy
          subst hx
          subst hy
          exact hcmp
        · exact h3 i j hdi hc hj
      | true =>
        rw [siftdownLoop_eq_up lt newitem L startpos pos parent hlt hp hcmp] at hRk
        have hdpp : Desc startpos ((pos - 1) / 2) := (Desc.to_parent h2 (by omega)).1
        have hM'pos : ((L.set pos parent).set ((pos - 1) / 2) newitem).get? pos
            = some parent := by
          rw [List.get?_set_ne _ _ hppne, List.get?_set_eq_of_lt _ h1]
        have hM'pp : ((L.set pos parent).set ((pos - 1) / 2) newitem).get? ((pos - 1) / 2)
            = some newitem := by
          rw [List.get?_set_eq_of_lt]
          rw [List.length_set]
          omega
        have hM'q : ∀ q, q ≠ (pos - 1) / 2 → q ≠ pos →
            ((L.set pos parent).set ((pos - 1) / 2) newitem).get? q = L.get? q := by
          intro q hq1 hq2
          rw [List.get?_set_ne _ _ (Ne.symm hq1), List.get?_set_ne _ _ (Ne.symm hq2)]
        have hMpos : (L.set pos newitem).get? pos = some newitem :=
          List.get?_set_eq_of_lt _ h1
        have hMpp : (L.set pos newitem).get? ((pos - 1) / 2) = some parent := by
          rw [List.get?_set_ne _ _ (Ne.symm hppne)]
          exact hp
        have hMq : ∀ q, q ≠ pos → (L.set pos newitem).get? q = L.get? q := by
          intro q hq
          rw [List.get?_set_ne _ _ (Ne.symm hq)]
        have c1' : (pos - 1) / 2 < (L.set pos parent).length := by
          rw [List.length_set]
          omega
        have c3' : ∀ i j, Desc startpos i → IsChild i j → j ≠ (pos - 1) / 2 →
            leAt lt ((L.set pos parent).set ((pos - 1) / 2) newitem) i j := by
          intro i j hdi hc hjpp
          by_cases hjpos : j = pos
          · subst hjpos
            have hi := hchildpp i hc
            subst hi
            intro x y hx hy
            rw [hM'pp] at hx
            rw [hM'pos] at hy
            injection hx with hx
            injection hy with hy
            subst hx
            subst hy
            exact leB_of_lt laws hcmp
          · by_cases hipos : i = pos
            · subst hipos
              intro x y hx hy
              rw [hM'pos] at hx
              injection hx with hx
              subst hx
              rw [hM'q j hjpp hjpos] at hy
              exact h4 (by omega) j hc parent y hMpp ((hMq j hjpos).trans hy)
            · by_cases hipp : i = (pos - 1) / 2
              · subst hipp
                intro x y hx hy
                rw [hM'pp] at hx
                injection hx with hx
                subst hx
                rw [hM'q j hjpp hjpos] at hy
                have h5 := h3 _ j hdi hc hjpos parent y hMpp ((hMq j hjpos).trans hy)
                exact laws.leTrans newitem parent y (leB_of_lt laws hcmp) h5
              · intro x y hx hy
                rw [hM'q i hipp hipos] at hx
                rw [hM'q j hjpp hjpos] at hy
                exact h3 i j hdi hc hjpos x y ((hMq i hipos).trans hx)
                  ((hMq j hjpos).trans hy)
        have c4' : (pos - 1) / 2 ≠ startpos → ∀ j, IsChild ((pos - 1) / 2) j →
            leAt lt ((L.set pos parent).set ((pos - 1) / 2) newitem)
              (parentIdx ((pos - 1) / 2)) j := by
          intro hne j hc
          have hspp : startpos < (pos - 1) / 2 := by
            have := Desc.le hdpp
            omega
          have hgplt : parentIdx ((pos - 1) / 2) < (pos - 1) / 2 := by
            unfold parentIdx
            omega
          have hdgp : Desc startpos (parentIdx ((pos - 1) / 2)) :=
            (Desc.to_parent hdpp (Ne.symm hne)).1
          have hcgp : IsChild (parentIdx ((pos - 1) / 2)) ((pos - 1) / 2) :=
            parent_isChild (by omega)
          have hgp_pp : leAt lt (L.set pos newitem) (parentIdx ((pos - 1) / 2))
              ((pos - 1) / 2) := h3 _ _ hdgp hcgp hppne
          have hgpne_pp : parentIdx ((pos - 1) / 2) ≠ (pos - 1) / 2 := by omega
          have hgpne_pos : parentIdx ((pos - 1) / 2) ≠ pos := by omega
          by_cases hjpos : j = pos
          · subst hjpos
            intro x y hx hy
            rw [hM'q _ hgpne_pp hgpne_pos] at hx
            rw [hM'pos] at hy
            injection hy with hy
            subst hy
            exact hgp_pp x parent ((hMq _ hgpne_pos).trans hx) hMpp
          · have hjpp : j ≠ (pos - 1) / 2 := by
              have := child_lt hc
              omega
            intro x y hx hy
            rw [hM'q _ hgpne_pp hgpne_pos] at hx
            rw [hM'q j hjpp hjpos] at hy
            have h5 : leB lt x parent :=
              hgp_pp x parent ((hMq _ hgpne_pos).trans hx) hMpp
            have h6 : leB lt parent y :=
              h3 _ j hdpp hc hjpos parent y hMpp ((hMq j hjpos).trans hy)
            exact laws.leTrans x parent y h5 h6
        obtain ⟨m1, m2, m3, m4, m5, m6⟩ :=
          ih ((pos - 1) / 2) hpplt (L.set pos parent) startpos c1' hdpp c3' c4' R k hRk
        have hperm : List.Perm ((L.set pos parent).set ((pos - 1) / 2) newitem)
            (L.set pos newitem) := by
          have hss : L.set pos parent = (L.set pos newitem).set pos parent := by
            rw [List.set_set]
          rw [hss]
          exact set_swap_perm (L.set pos newitem) pos ((pos - 1) / 2) newitem parent
            (Ne.symm hppne) hMpos hMpp
        refine ⟨m1, m2.trans hperm, by rw [m3, List.length_set], m4, ?_, ?_⟩
        · rw [List.length_set] at m5
          exact m5
        · intro q hq
          have hqpp : q ≠ (pos - 1) / 2 := by
            intro h
            exact hq (by rw [h]; exact hdpp)
          have hqpos : q ≠ pos := by
            intro h
            exact hq (by rw [h]; exact h2)
          rw [m6 q hq, hM'q q hqpp hqpos, hMq q hqpos]
    · rw [siftdownLoop_eq_stop lt newitem L startpos pos hlt] at hRk
      injection hRk with hR hk
      subst hR
      subst hk
      refine ⟨?_, List.Perm.refl _, rfl, h2, h1, fun q _ => rfl⟩
      intro i j hdi hc
      by_cases hj : j = pos
      · subst hj
        have hle := Desc.le h2
        have hile := Desc.le hdi
        have := child_lt hc
        exfalso
        omega
      · exact h3 i j hdi hc hj

theorem desc_zero : ∀ j, Desc 0 j := by
  intro j
  induction j using Nat.strong_induction_on with
  | _ j ih =>
    cases Nat.eq_zero_or_pos j with
    | inl h =>
      rw [h]
      exact .refl 0
    | inr h =>
      have hp : parentIdx j < j := by unfold parentIdx; omega
      exact Desc.trans (ih (parentIdx j) hp) (Desc.child (parent_isChild h))

theorem siftdown_spec {α : Type} {lt : α → α → Bool} (laws : LtLaws lt) (L : List α)
    (startpos pos : Nat) (newitem : α) (hnew : L.get? pos = some newitem)
    (hdesc : Desc startpos pos)
    (h3 : ∀ i j, Desc startpos i → IsChild i j → j ≠ pos → leAt lt L i j)
    (h4 : pos ≠ startpos → ∀ j, IsChild pos j → leAt lt L (parentIdx pos) j) :
    HeapAt lt (siftdown lt L startpos pos) startpos ∧
    List.Perm (siftdown lt L startpos pos) L ∧
    (siftdown lt L startpos pos).length = L.length ∧
    (∀ q, ¬ Desc startpos q → (siftdown lt L startpos pos).get? q = L.get? q) := by
  have h1 : pos < L.length := (List.get?_eq_some.mp hnew).1
  have hself : L.set pos newitem = L := set_eq_self_of_get? hnew
  have heq : siftdown lt L startpos pos =
      (siftdownLoop lt newitem L startpos pos).1.set
        (siftdownLoop lt newitem L startpos pos).2 newitem := by
    rw [siftdown, hnew]
  obtain ⟨⟨R, k⟩, hRk⟩ : ∃ rk, siftdownLoop lt newitem L startpos pos = rk := ⟨_, rfl⟩
  obtain ⟨m1, m2, m3, m4, m5, m6⟩ :=
    siftdownLoop_spec laws newitem pos L startpos h1 hdesc
      (by rw [hself]; exact h3) (by rw [hself]; exact h4) R k hRk
  rw [hRk] at heq
  refine ⟨?_, ?_, ?_, ?_⟩
  · rw [heq]
    exact m1
  · rw [heq]
    have h := m2
    rw [hself] at h
    exact h
  · rw [heq, List.length_set]
    exact m3
  · intro q hq
    rw [heq]
    have h := m6 q hq
    rw [hself] at h
    exact h

theorem heappush_spec {α : Type} {lt : α → α → Bool} (laws : LtLaws lt) (L : List α)
    (x : α) (h : IsHeap lt L) :
    IsHeap lt (heappush lt L x) ∧ List.Perm (heappush lt L x) (x :: L) ∧
      (heappush lt L x).length = L.length + 1 := by
  unfold heappush
  have hnew : (L ++ [x]).get? L.length = some x := List.get?_concat_length L x
  have h3 : ∀ i j, Desc 0 i → IsChild i j → j ≠ L.length → leAt lt (L ++ [x]) i j := by
    intro i j _ hc hj a b ha hb
    by_cases hjlen : j < L.length
    · have hilen : i < L.length := by
        have := child_lt hc
        omega
      rw [List.get?_append hilen] at ha
      rw [List.get?_append hjlen] at hb
      exact h i j (desc_zero i) hc a b ha hb
    · have : (L ++ [x]).get? j = none := by
        rw [List.get?_eq_none, List.length_append]
        simp only [List.length_singleton]
        omega
      rw [this] at hb
      cases hb
  have h4 : L.length ≠ 0 → ∀ j, IsChild L.length j →
      leAt lt (L ++ [x]) (parentIdx L.length) j := by
    intro _ j hc a b ha hb
    have : (L ++ [x]).get? j = none := by
      rw [List.get?_eq_none, List.length_append]
      unfold IsChild at hc
      simp only [List.length_singleton]
      omega
    rw [this] at hb
    cases hb
  obtain ⟨m1, m2, m3, m4⟩ :=
    siftdown_spec laws (L ++ [x]) 0 L.length x hnew (desc_zero _) h3 h4
  refine ⟨m1, m2.trans (List.perm_append_singleton x L), ?_⟩
  rw [m3, List.length_append]
  rfl

theorem chooseChild_spec {α : Type} {lt : α → α → Bool} (laws : LtLaws lt) (L : List α)
    (pos : Nat) (h : 2 * pos + 1 < L.length) :
    IsChild pos (chooseChild lt L pos h).1 ∧
    ∀ z, L.get? (chooseChild lt L pos h).1 = some z →
      ∀ j y, IsChild pos j → L.get? j = some y → leB lt z y := by
  have hgl : L.get? (2 * pos + 1) = some (L.get ⟨2 * pos + 1, h⟩) := List.get?_eq_get h
  by_cases h2 : 2 * pos + 2 < L.length
  · have hgr : L.get? (2 * pos + 2) = some (L.get ⟨2 * pos + 2, h2⟩) := List.get?_eq_get h2
    cases hlr : lt (L.get ⟨2 * pos + 1, h⟩) (L.get ⟨2 * pos + 2, h2⟩) with
    | true =>
      have hval : (chooseChild lt L pos h).1 = 2 * pos + 1 := by
        unfold chooseChild
        rw [dif_pos h2, if_pos hlr]
      rw [hval]
      refine ⟨Or.inl rfl, ?_⟩
      intro z hz j y hcj hy
      have hzv : L.get ⟨2 * pos + 1, h⟩ = z := by
        have := hgl.symm.trans hz
        injection this
      rcases hcj with rfl | rfl
      · have hyv : L.get ⟨2 * pos + 1, h⟩ = y := by
          have := hgl.symm.trans hy
          injection this
        rw [← hzv, ← hyv]
        exact leB_refl laws _
      · have hyv : L.get ⟨2 * pos + 2, h2⟩ = y := by
          have := hgr.symm.trans hy
          injection this
        rw [← hzv, ← hyv]
        exact leB_of_lt laws hlr
    | false =>
      have hval : (chooseChild lt L pos h).1 = 2 * pos + 2 := by
        unfold chooseChild
        rw [dif_pos h2, if_neg (by rw [hlr]; simp)]
      rw [hval]
      refine ⟨Or.inr rfl, ?_⟩
      intro z hz j y hcj hy
      have hzv : L.get ⟨2 * pos + 2, h2⟩ = z := by
        have := hgr.symm.trans hz
        injection this
      rcases hcj with rfl | rfl
      · have hyv : L.get ⟨2 * pos + 1, h⟩ = y := by
          have := hgl.symm.trans hy
          injection this
        rw [← hzv, ← hyv]
        exact leB_of_not_lt hlr
      · have hyv : L.get ⟨2 * pos + 2, h2⟩ = y := by
          have := hgr.symm.trans hy
          injection this
        rw [← hzv, ← hyv]
        exact leB_refl laws _
  · have hval : (chooseChild lt L pos h).1 = 2 * pos + 1 := by
      unfold chooseChild
      rw [dif_neg h2]
    rw [hval]
    refine ⟨Or.inl rfl, ?_⟩
    intro z hz j y hcj hy
    have hzv : L.get ⟨2 * pos + 1, h⟩ = z := by
      have := hgl.symm.trans hz
      injection this
    rcases hcj with rfl | rfl
    · have hyv : L.get ⟨2 * pos + 1, h⟩ = y := by
        have := hgl.symm.trans hy
        injection this
      rw [← hzv, ← hyv]
      exact leB_refl laws _
    · have : L.get? (2 * pos + 2) = none := List.get?_eq_none.mpr (by omega)
      rw [this] at hy
      cases hy

theorem siftupLoop_eq_stop {α : Type} (lt : α → α → Bool) (L : List α) (pos : Nat)
    (h : ¬ 2 * pos + 1 < L.length) : siftupLoop lt L pos = (L, pos) := by
  rw [siftupLoop]
  exact dif_neg h

theorem siftupLoop_eq_step {α : Type} (lt : α → α → Bool) (L : List α) (pos : Nat)
    (h : 2 * pos + 1 < L.length) :
    siftupLoop lt L pos =
      siftupLoop lt
        (L.set pos (L.get ⟨(chooseChild lt L pos h).1, (chooseChild lt L pos h).2.2⟩))
        (chooseChild lt L pos h).1 := by
  rw [siftupLoop]
  rw [dif_pos h]

theorem siftupLoop_spec {α : Type} {lt : α → α → Bool} (laws : LtLaws lt) :
    ∀ (n : Nat) (L : List α) (pos s : Nat), L.length - pos ≤ n →
      pos < L.length →
      Desc s pos →
      (∀ i j, Desc s i → IsChild i j → i ≠ pos → j ≠ pos → leAt lt L i j) →
      (pos ≠ s → ∀ j, IsChild pos j → leAt lt L (parentIdx pos) j) →
      ∀ R k, siftupLoop lt L pos = (R, k) →
        R.length = L.length ∧
        Desc s k ∧
        k < L.length ∧
        2 * k + 1 ≥ L.length ∧
        (∀ i j, Desc s i → IsChild i j → i ≠ k → j ≠ k → leAt lt R i j) ∧
        (∀ x, List.Perm (R.set k x) (L.set pos x)) ∧
        (∀ q, ¬ Desc s q → R.get? q = L.get? q) := by
  intro n
  induction n with
  | zero =>
    intro L pos s hfuel h1 _ _ _ R k _
    exfalso
    omega
  | succ n ih =>
    intro L pos s hfuel h1 h2 h3 h4 R k hRk
    by_cases hc : 2 * pos + 1 < L.length
    · rw [siftupLoop_eq_step lt L pos hc] at hRk
      have hcchild : IsChild pos (chooseChild lt L pos hc).1 :=
        (chooseChild_spec laws L pos hc).1
      have hcmin := (chooseChild_spec laws L pos hc).2
      set c := (chooseChild lt L pos hc).1 with hcdef
      have hclen : c < L.length := (chooseChild lt L pos hc).2.2
      set cv := L.get ⟨c, hclen⟩ with hcveq
      have hcv : L.get? c = some cv := by
        rw [hcveq]
        exact List.get?_eq_get hclen
      have hcpos : pos < c := child_lt hcchild
      have hdc : Desc s c := Desc.trans h2 (Desc.child hcchild)
      have hL'c : (L.set pos cv).get? c = some cv := by
        rw [List.get?_set_ne _ _ (by omega : pos ≠ c)]
        exact hcv
      have hL'pos : (L.set pos cv).get? pos = some cv := List.get?_set_eq_of_lt _ h1
      have hL'q : ∀ q, q ≠ pos → (L.set pos cv).get? q = L.get? q := by
        intro q hq
        rw [List.get?_set_ne _ _ (Ne.symm hq)]
      have hfuel' : (L.set pos cv).length - c ≤ n := by
        rw [List.length_set]
        omega
      have h1' : c < (L.set pos cv).length := by
        rw [List.length_set]
        exact hclen
      have h3' : ∀ i j, Desc s i → IsChild i j → i ≠ c → j ≠ c →
          leAt lt (L.set pos cv) i j := by
        intro i j hdi hcij hic hjc
        by_cases hipos : i = pos
        · intro x y hx hy
          rw [hipos, hL'pos] at hx
          injection hx with hx
          subst hx
          have hjpos : j ≠ pos := by
            have := child_lt hcij
            omega
          rw [hL'q j hjpos] at hy
          have hcij2 : IsChild pos j := by
            rw [← hipos]
            exact hcij
          exact hcmin cv hcv j y hcij2 hy
        · by_cases hjpos : j = pos
          · by_cases hps : pos = s
            · exfalso
              have h5 := Desc.le hdi
              have h6 := child_lt hcij
              omega
            · have hipar : i = parentIdx pos := by
                unfold IsChild at hcij
                unfold parentIdx
                omega
              intro x y hx hy
              rw [hL'q i hipos, hipar] at hx
              rw [hjpos, hL'pos] at hy
              injection hy with hy
              subst hy
              exact h4 hps c hcchild x cv hx hcv
          · intro x y hx hy
            rw [hL'q i hipos] at hx
            rw [hL'q j hjpos] at hy
            exact h3 i j hdi hcij hipos hjpos x y hx hy
      have h4' : c ≠ s → ∀ j, IsChild c j → leAt lt (L.set pos cv) (parentIdx c) j := by
        intro _ j hcj
        have hparc : parentIdx c = pos := by
          have h8 := hcchild
          unfold IsChild at h8
          unfold parentIdx
          omega
        rw [hparc]
        intro x y hx hy
        rw [hL'pos] at hx
        injection hx with hx
        subst hx
        have hjc : j ≠ pos := by
          have := child_lt hcj
          omega
        rw [hL'q j hjc] at hy
        exact h3 c j hdc hcj (by omega) hjc cv y hcv hy
      obtain ⟨e1, e2, e3, e4, e5, e6, e7⟩ :=
        ih (L.set pos cv) c s hfuel' h1' hdc h3' h4' R k hRk
      rw [List.length_set] at e1 e3 e4
      refine ⟨e1, e2, e3, e4, e5, ?_, ?_⟩
      · intro x
        have hstep : List.Perm ((L.set pos cv).set c x) (L.set pos x) := by
          have hM : L.set pos cv = (L.set pos x).set pos cv := by
            rw [List.set_set]
          rw [hM]
          exact set_swap_perm (L.set pos x) pos c x cv (by omega)
            (List.get?_set_eq_of_lt _ h1)
            (by rw [List.get?_set_ne _ _ (by omega : pos ≠ c)]; exact hcv)
        exact (e6 x).trans hstep
      · intro q hq
        have hqpos : q ≠ pos := by
          intro h
          exact hq (by rw [h]; exact h2)
        rw [e7 q hq, hL'q q hqpos]
    · rw [siftupLoop_eq_stop lt L pos hc] at hRk
      injection hRk with hR hk
      subst hR
      subst hk
      exact ⟨rfl, h2, h1, by omega, h3, fun x => List.Perm.refl _, fun q _ => rfl⟩

theorem siftup_spec {α : Type} {lt : α → α → Bool} (laws : LtLaws lt) (L : List α)
    (s : Nat) (hs : ∀ i j, Desc s i → IsChild i j → i ≠ s → leAt lt L i j) :
    HeapAt lt (siftup lt L s) s ∧ List.Perm (siftup lt L s) L ∧
    (siftup lt L s).length = L.length ∧
    (∀ q, ¬ Desc s q → (siftup lt L s).get? q = L.get? q) := by
  cases hns : L.get? s with
  | none =>
    have heq : siftup lt L s = L := by rw [siftup, hns]
    rw [heq]
    refine ⟨?_, List.Perm.refl _, rfl, fun q _ => rfl⟩
    intro i j hdi _ x y hx _
    have hslen : L.length ≤ s := List.get?_eq_none.mp hns
    have hilen : L.length ≤ i := le_trans hslen (Desc.le hdi)
    rw [List.get?_eq_none.mpr hilen] at hx
    cases hx
  | some newitem =>
    have heq : siftup lt L s =
        siftdown lt ((siftupLoop lt L s).1.set (siftupLoop lt L s).2 newitem) s
          (siftupLoop lt L s).2 := by
      rw [siftup, hns]
    obtain ⟨⟨R, k⟩, hRk⟩ : ∃ rk, siftupLoop lt L s = rk := ⟨_, rfl⟩
    rw [hRk] at heq
    have hslen : s < L.length := (List.get?_eq_some.mp hns).1
    obtain ⟨e1, e2, e3, e4, e5, e6, e7⟩ :=
      siftupLoop_spec laws L.length L s s (by omega) hslen (.refl s)
        (by intro i j hdi hc hi _; exact hs i j hdi hc hi)
        (fun habs => absurd rfl habs)
        R k hRk
    have hMk : (R.set k newitem).get? k = some newitem :=
      List.get?_set_eq_of_lt _ (by omega)
    have hMnone : ∀ j, L.length ≤ j → (R.set k newitem).get? j = none := by
      intro j hj
      rw [List.get?_eq_none, List.length_set, e1]
      exact hj
    have h3' : ∀ i j, Desc s i → IsChild i j → j ≠ k → leAt lt (R.set k newitem) i j := by
      intro i j hdi hc hj
      by_cases hik : i = k
      · intro x y _ hy
        have hjlen : L.length ≤ j := by
          have := child_lt hc
          unfold IsChild at hc
          omega
        rw [hMnone j hjlen] at hy
        cases hy
      · intro x y hx hy
        rw [List.get?_set_ne _ _ (Ne.symm hik)] at hx
        rw [List.get?_set_ne _ _ (Ne.symm hj)] at hy
        exact e5 i j hdi hc hik hj x y hx hy
    have h4' : k ≠ s → ∀ j, IsChild k j → leAt lt (R.set k newitem) (parentIdx k) j := by
      intro _ j hc x y _ hy
      have hjlen : L.length ≤ j := by
        unfold IsChild at hc
        omega
      rw [hMnone j hjlen] at hy
      cases hy
    obtain ⟨d1, d2, d3, d4⟩ := siftdown_spec laws (R.set k newitem) s k newitem hMk e2 h3' h4'
    rw [heq]
    refine ⟨d1, ?_, ?_, ?_⟩
    · have hLs : L.set s newitem = L := set_eq_self_of_get? hns
      have h := e6 newitem
      rw [hLs] at h
      exact d2.trans h
    · rw [d3, List.length_set, e1]
    · intro q hq
      have hqk : q ≠ k := by
        intro h
        exact hq (by rw [h]; exact e2)
      rw [d4 q hq, List.get?_set_ne _ _ (Ne.symm hqk), e7 q hq]

theorem heappop_spec {α : Type} {lt : α → α → Bool} (laws : LtLaws lt) (L : List α)
    (h : IsHeap lt L) :
    (L = [] → heappop lt L = none) ∧
    ∀ x L', heappop lt L = some (x, L') →
      (∀ y ∈ L, leB lt x y) ∧ List.Perm (x :: L') L ∧ IsHeap lt L' := by
  constructor
  · intro hnil
    rw [hnil]
    rfl
  · intro x L' hpop
    cases hL : L.getLast? with
    | none =>
      rw [List.getLast?_eq_none_iff] at hL
      rw [hL] at hpop
      cases hpop
    | some lastelt =>
      have hdropeq := List.dropLast_append_getLast? lastelt (Option.mem_def.mpr hL)
      have heq : heappop lt L =
          (match L.dropLast with
            | [] => some (lastelt, [])
            | r0 :: rest => some (r0, siftup lt ((r0 :: rest).set 0 lastelt) 0)) := by
        rw [heappop, hL]
      cases hdrop : L.dropLast with
      | nil =>
        rw [heq, hdrop] at hpop
        have hpop2 : some (lastelt, ([] : List α)) = some (x, L') := hpop
        injection hpop2 with hpair
        injection hpair with hx hL'
        subst hx
        subst hL'
        rw [hdrop] at hdropeq
        have hLeq : L = [lastelt] := by
          rw [← hdropeq]
          rfl
        refine ⟨?_, ?_, ?_⟩
        · intro y hy
          rw [hLeq] at hy
          have : y = lastelt := by simpa using hy
          rw [this]
          exact leB_refl laws _
        · rw [hLeq]
        · intro i j _ _ a b ha _
          cases ha
      | cons r0 rest =>
        rw [heq, hdrop] at hpop
        have hpop2 : some (r0, siftup lt ((r0 :: rest).set 0 lastelt) 0) = some (x, L') :=
          hpop
        injection hpop2 with hpair
        injection hpair with hx hL'
        subst hx
        subst hL'
        rw [hdrop] at hdropeq
        have hLeq : L = (r0 :: rest) ++ [lastelt] := hdropeq.symm
        have hs : ∀ i j, Desc 0 i → IsChild i j → i ≠ 0 →
            leAt lt ((r0 :: rest).set 0 lastelt) i j := by
          intro i j _ hc hi a b ha hb
          have hij := child_lt hc
          by_cases hjlen : j < rest.length + 1
          · have hilen : i < rest.length + 1 := by omega
            have hi1 : 1 ≤ i := by omega
            have hvai : ((r0 :: rest).set 0 lastelt).get? i = L.get? i := by
              rw [List.get?_set_ne _ _ (by omega : (0 : Nat) ≠ i), hLeq,
                List.get?_append (by simpa using hilen)]
            have hvaj : ((r0 :: rest).set 0 lastelt).get? j = L.get? j := by
              rw [List.get?_set_ne _ _ (by omega : (0 : Nat) ≠ j), hLeq,
                List.get?_append (by simpa using hjlen)]
            rw [hvai] at ha
            rw [hvaj] at hb
            exact h i j (desc_zero i) hc a b ha hb
          · have : ((r0 :: rest).set 0 lastelt).get? j = none := by
              rw [List.get?_eq_none, List.length_set]
              simp only [List.length_cons]
              omega
            rw [this] at hb
            cases hb
        obtain ⟨u1, u2, u3, u4⟩ := siftup_spec laws ((r0 :: rest).set 0 lastelt) 0 hs
        refine ⟨?_, ?_, u1⟩
        · intro y hy
          obtain ⟨n, hn⟩ := List.mem_iff_get?.mp hy
          exact heapAt_root_le laws h (desc_zero n) r0 y (by rw [hLeq]; rfl) hn
        · refine @List.Perm.trans α _ (r0 :: lastelt :: rest) _ (List.Perm.cons r0 ?_) ?_
          · exact u2
          · rw [hLeq]
            show List.Perm (r0 :: lastelt :: rest) (r0 :: (rest ++ [lastelt]))
            exact List.Perm.cons r0 (List.perm_append_singleton lastelt rest).symm

theorem heapifyLoop_spec {α : Type} {lt : α → α → Bool} (laws : LtLaws lt) :
    ∀ (k : Nat) (L : List α), (∀ r, k ≤ r → HeapAt lt L r) →
      IsHeap lt (heapifyLoop lt L k) ∧ List.Perm (heapifyLoop lt L k) L ∧
      (heapifyLoop lt L k).length = L.length := by
  intro k
  induction k with
  | zero =>
    intro L hL
    exact ⟨hL 0 (Nat.le_refl 0), List.Perm.refl _, rfl⟩
  | succ k ih =>
    intro L hL
    have hs : ∀ i j, Desc k i → IsChild i j → i ≠ k → leAt lt L i j := by
      intro i j hdi hc hik
      have hki : k < i := by
        have := Desc.le hdi
        omega
      exact hL i (by omega) i j (.refl i) hc
    obtain ⟨u1, u2, u3, u4⟩ := siftup_spec laws L k hs
    have hAll : ∀ r, k ≤ r → HeapAt lt (siftup lt L k) r := by
      intro r hr
      by_cases hrk : r = k
      · rw [hrk]
        exact u1
      · by_cases hdes : Desc k r
        · exact u1.sub hdes
        · refine heapAt_congr ?_ (hL r (by omega))
          intro q hq
          have hnkq : ¬ Desc k q := by
            intro hkq
            rcases desc_linear q k r hkq hq with h1 | h1
            · exact hdes h1
            · have := Desc.le h1
              omega
          exact (u4 q hnkq).symm
    obtain ⟨m1, m2, m3⟩ := ih (siftup lt L k) hAll
    exact ⟨m1, m2.trans u2, m3.trans u3⟩

theorem heapify_spec {α : Type} {lt : α → α → Bool} (laws : LtLaws lt) (L : List α) :
    IsHeap lt (heapify lt L) ∧ List.Perm (heapify lt L) L ∧
    (heapify lt L).length = L.length := by
  unfold heapify
  apply heapifyLoop_spec laws (L.length / 2) L
  intro r hr i j hdi hc a b _ hb
  have h1 := Desc.le hdi
  have hj : L.length ≤ j := by
    unfold IsChild at hc
    omega
  rw [List.get?_eq_none.mpr hj] at hb
  cases hb

theorem pyPairLt_laws {κ ι : Type} [LinearOrder κ] [LinearOrder ι] :
    LtLaws (pyPairLt (κ := κ) (ι := ι)) := by
  constructor
  · intro a b h
    by_contra hne
    have hba : pyPairLt b a = true := by
      cases hba : pyPairLt b a
      · exact absurd hba hne
      · rfl
    simp only [pyPairLt, Bool.or_eq_true, Bool.and_eq_true, decide_eq_true_eq] at h hba
    rcases h with h | ⟨h1, h2⟩ <;> rcases hba with hb | ⟨hb1, hb2⟩
    · exact lt_asymm h hb
    · rw [hb1] at h
      exact lt_irrefl _ h
    · rw [h1] at hb
      exact lt_irrefl _ hb
    · exact lt_asymm h2 hb2
  · intro a b c hab hbc
    have hab' : ¬ (b.1 < a.1 ∨ (b.1 = a.1 ∧ b.2 < a.2)) := by
      intro hcon
      have htrue : pyPairLt b a = true := by
        simp only [pyPairLt, Bool.or_eq_true, Bool.and_eq_true, decide_eq_true_eq]
        exact hcon
      rw [show pyPairLt b a = false from hab] at htrue
      cases htrue
    have hbc' : ¬ (c.1 < b.1 ∨ (c.1 = b.1 ∧ c.2 < b.2)) := by
      intro hcon
      have htrue : pyPairLt c b = true := by
        simp only [pyPairLt, Bool.or_eq_true, Bool.and_eq_true, decide_eq_true_eq]
        exact hcon
      rw [show pyPairLt c b = false from hbc] at htrue
      cases htrue
    push_neg at hab' hbc'
    show pyPairLt c a = false
    cases hca : pyPairLt c a with
    | false => rfl
    | true =>
      exfalso
      simp only [pyPairLt, Bool.or_eq_true, Bool.and_eq_true, decide_eq_true_eq] at hca
      rcases hca with hlt | ⟨heq, hlt2⟩
      · exact lt_irrefl a.1 (lt_of_le_of_lt (le_trans hab'.1 hbc'.1) hlt)
      · have hba1 : b.1 = a.1 := le_antisymm (heq ▸ hbc'.1) hab'.1
        have hcb1 : c.1 = b.1 := by rw [heq, ← hba1]
        have h2ab : a.2 ≤ b.2 := hab'.2 hba1
        have h2bc : b.2 ≤ c.2 := hbc'.2 hcb1
        exact lt_irrefl a.2 (lt_of_le_of_lt (le_trans h2ab h2bc) hlt2)

theorem pq_invariant {κ ι : Type} [LinearOrder κ] [LinearOrder ι] (key : ι → κ) :
    ∀ q, PQReachable pyPairLt key q →
      IsHeap pyPairLt q ∧ ∀ p ∈ q, p.1 = key p.2 := by
  intro q hq
  induction hq with
  | init initial =>
    obtain ⟨m1, m2, _⟩ := heapify_spec pyPairLt_laws (initial.map (fun x => (key x, x)))
    refine ⟨m1, ?_⟩
    intro p hp
    have hp2 : p ∈ initial.map (fun x => (key x, x)) := m2.mem_iff.mp hp
    obtain ⟨x, _, hx⟩ := List.mem_map.mp hp2
    rw [← hx]
  | push item _ ih =>
    obtain ⟨m1, m2, _⟩ := heappush_spec pyPairLt_laws _ (key item, item) ih.1
    refine ⟨m1, ?_⟩
    intro p hp
    have hp2 := m2.mem_iff.mp hp
    rcases List.mem_cons.mp hp2 with rfl | hmem
    · rfl
    · exact ih.2 p hmem
  | pop _ heq ih =>
    rename_i q0 q' item h0
    cases hpp : heappop pyPairLt q0 with
    | none =>
      rw [pqPop, hpp] at heq
      cases heq
    | some pr =>
      rw [pqPop, hpp] at heq
      have heq2 : some (pr.1.2, pr.2) = some (item, q') := heq
      injection heq2 with heq2
      injection heq2 with h1 h2
      obtain ⟨_, hperm, hheap⟩ :=
        (heappop_spec pyPairLt_laws q0 ih.1).2 pr.1 pr.2 (by rw [hpp])
      refine ⟨by rw [← h2]; exact hheap, ?_⟩
      intro p hp
      rw [← h2] at hp
      have hpq : p ∈ q0 := hperm.mem_iff.mp (List.mem_cons_of_mem _ hp)
      exact ih.2 p hpq

/-- C10: on every queue reachable by building a `PriorityQueue` from an
initial collection and interleaving pushes and pops, `pop` on an empty
queue raises `IndexError` (modelled as `none`), and otherwise returns a
stored payload whose key (under the queue's key function) is minimal
among all stored entries, removes exactly that entry, and the resulting
queue is again reachable, so the property is preserved for subsequent
pops. -/
theorem c10_priority_queue_pop {κ ι : Type} [LinearOrder κ] [LinearOrder ι]
    (key : ι → κ) (q : List (κ × ι)) (hq : PQReachable pyPairLt key q) :
    (q = [] → pqPop pyPairLt q = none) ∧
    (∀ item q', pqPop pyPairLt q = some (item, q') →
      (∀ p ∈ q, key item ≤ key p.2) ∧
      List.Perm ((key item, item) :: q') q ∧
      PQReachable pyPairLt key q') := by
  constructor
  · intro hnil
    rw [hnil]
    rfl
  · intro item q' hpop
    have hpop0 := hpop
    have hinv := pq_invariant key q hq
    cases hpp : heappop pyPairLt q with
    | none =>
      rw [pqPop, hpp] at hpop
      cases hpop
    | some pr =>
      rw [pqPop, hpp] at hpop
      have hpop2 : some (pr.1.2, pr.2) = some (item, q') := hpop
      injection hpop2 with hpop2
      injection hpop2 with h1 h2
      obtain ⟨hmin, hperm, _⟩ :=
        (heappop_spec pyPairLt_laws q hinv.1).2 pr.1 pr.2 (by rw [hpp])
      have hkey : pr.1.1 = key item := by
        have hmem : pr.1 ∈ q := hperm.mem_iff.mp (List.mem_cons_self _ _)
        have hk := hinv.2 pr.1 hmem
        rw [hk, h1]
      refine ⟨?_, ?_, PQReachable.pop hq hpop0⟩
      · intro p hp
        have hle' : pyPairLt p pr.1 = false := hmin p hp
        have hnp : ¬ (p.1 < pr.1.1 ∨ (p.1 = pr.1.1 ∧ p.2 < pr.1.2)) := by
          intro hcon
          have htrue : pyPairLt p pr.1 = true := by
            simp only [pyPairLt, Bool.or_eq_true, Bool.and_eq_true, decide_eq_true_eq]
            exact hcon
          rw [hle'] at htrue
          cases htrue
        push_neg at hnp
        have h3 : pr.1.1 ≤ p.1 := hnp.1
        rw [hkey, hinv.2 p hp] at h3
        exact h3
      · have hpr : pr.1 = (key item, item) := by
          have hpr0 : pr.1 = (pr.1.1, pr.1.2) := rfl
          rw [hpr0, hkey, h1]
        rw [← hpr, ← h2]
        exact hperm

/-- C10 witness: the queue built from `[3, 1, 2]` with the identity key
is reachable, and the theorem's conclusions hold for it. -/
theorem c10_priority_queue_pop_witness :
    PQReachable pyPairLt (fun x : Nat => x)
      (pqInit pyPairLt (fun x : Nat => x) [3, 1, 2]) ∧
    ((pqInit pyPairLt (fun x : Nat => x) [3, 1, 2] = [] →
        pqPop pyPairLt (pqInit pyPairLt (fun x : Nat => x) [3, 1, 2]) = none) ∧
      (∀ item q', pqPop pyPairLt (pqInit pyPairLt (fun x : Nat => x) [3, 1, 2])
          = some (item, q') →
        (∀ p ∈ pqInit pyPairLt (fun x : Nat => x) [3, 1, 2], item ≤ p.2) ∧
        List.Perm ((item, item) :: q') (pqInit pyPairLt (fun x : Nat => x) [3, 1, 2]) ∧
        PQReachable pyPairLt (fun x : Nat => x) q')) :=
  ⟨PQReachable.init [3, 1, 2],
    c10_priority_queue_pop (fun x : Nat => x) _ (PQReachable.init [3, 1, 2])⟩

end RCluster
